import Mathlib

/-!
Verification development for the aarg repository (an APT repository
aggregator).  The definitions below are shallow embeddings of the Go source:
pure functions become Lean functions, stateful code becomes explicit state
passing, machine integers become `Int`/`Nat`, fallible code returns
`Except`/`Option`.  Strings are modelled as Lean `String`/`List Char`; the
Go code indexes bytes, which coincides with characters on the ASCII inputs
handled throughout this code base.
-/

/-! ## Characters and numeric parsing (internal/common retention.go helpers) -/

/-- Digit test used by `extractPart` in the source: `r >= '0' && r <= '9'`. -/
def isDigitChar (c : Char) : Bool := 48 ≤ c.toNat && c.toNat ≤ 57

/-- Letter test used by `debianLexicalCompare` in the source:
`(ca >= 'A' && ca <= 'Z') || (ca >= 'a' && ca <= 'z')`. -/
def isLetterChar (c : Char) : Bool :=
  (65 ≤ c.toNat && c.toNat ≤ 90) || (97 ≤ c.toNat && c.toNat ≤ 122)

/-- `parseInt` from the source: `n, _ := strconv.Atoi(s); return n` with the
empty string short-circuited to 0.  On an all-digit run `Atoi` fails exactly
when the value overflows a 64-bit int, and on a range error it returns the
clamped value `MaxInt64 = 2^63 - 1` — the Go code discards the error and
uses that clamped value. -/
def parseInt (s : List Char) : Int :=
  let v : Nat := s.foldl (fun a c => 10 * a + (c.toNat - 48)) 0
  if v < 2 ^ 63 then (v : Int) else 2 ^ 63 - 1

/-! ## `debianLexicalCompare` (retention.go lines 416-471)

The Go loop walks both strings with a 0 rune as an end sentinel.  The
structural recursion below matches it case for case: tilde sorts before
everything (including the end of the string), end of string sorts before
every other character, letters sort before non-letters, otherwise plain
rune comparison. -/

def debianLexicalCompare : List Char → List Char → Int
  | [], [] => 0
  | [], b :: _ => if b = '~' then 1 else -1
  | a :: _, [] => if a = '~' then -1 else 1
  | a :: as, b :: bs =>
    if a = '~' && !(b = '~') then -1
    else if !(a = '~') && b = '~' then 1
    else if isLetterChar a && !isLetterChar b then -1
    else if !isLetterChar a && isLetterChar b then 1
    else if a.toNat < b.toNat then -1
    else if b.toNat < a.toNat then 1
    else debianLexicalCompare as bs

/-! A rank function turning `debianLexicalCompare` into an ordinary
lexicographic comparison of `Nat` sequences, used to derive its order
laws.  Rank 1 is reserved for the end-of-string sentinel; letters have
ranks `2 + code ≤ 124`, other non-tilde characters `200 + code`. -/

/-- Character rank realising the Debian lexical character order. -/
def charRank (c : Char) : Nat :=
  if c = '~' then 0 else if isLetterChar c then 2 + c.toNat else 200 + c.toNat

/-- Rank sequence of a string, with the end sentinel appended. -/
def ranks (s : List Char) : List Nat := s.map charRank ++ [1]

/-- Plain lexicographic comparison of `Nat` lists. -/
def lexInt : List Nat → List Nat → Int
  | [], [] => 0
  | [], _ :: _ => -1
  | _ :: _, [] => 1
  | x :: xs, y :: ys =>
    if x < y then -1 else if y < x then 1 else lexInt xs ys

theorem lexInt_antisym : ∀ xs ys : List Nat, lexInt xs ys = -lexInt ys xs := by
  intro xs
  induction xs with
  | nil => intro ys; cases ys <;> simp [lexInt]
  | cons x xs ih =>
    intro ys
    cases ys with
    | nil => simp [lexInt]
    | cons y ys =>
      simp only [lexInt]
      rcases Nat.lt_trichotomy x y with h | h | h
      · simp [h, Nat.lt_asymm h]
      · subst h
        simp [Nat.lt_irrefl, ih ys]
      · simp [h, Nat.lt_asymm h]

theorem lexInt_eq_zero_iff : ∀ xs ys : List Nat, lexInt xs ys = 0 ↔ xs = ys := by
  intro xs
  induction xs with
  | nil => intro ys; cases ys <;> simp [lexInt]
  | cons x xs ih =>
    intro ys
    cases ys with
    | nil => simp [lexInt]
    | cons y ys =>
      simp only [lexInt]
      rcases Nat.lt_trichotomy x y with h | h | h
      · rw [if_pos h]
        simp only [List.cons.injEq]
        constructor
        · intro hc; cases hc
        · rintro ⟨rfl, _⟩; exact absurd h (Nat.lt_irrefl x)
      · subst h
        simp [Nat.lt_irrefl, ih ys]
      · rw [if_neg (Nat.lt_asymm h), if_pos h]
        simp only [List.cons.injEq]
        constructor
        · intro hc; cases hc
        · rintro ⟨rfl, _⟩; exact absurd h (Nat.lt_irrefl x)

theorem lexInt_trans_neg :
    ∀ xs ys zs : List Nat, lexInt xs ys < 0 → lexInt ys zs < 0 → lexInt xs zs < 0 := by
  intro xs
  induction xs with
  | nil =>
    intro ys zs h1 h2
    cases ys with
    | nil => cases zs <;> simp [lexInt] at h2 ⊢
    | cons y ys =>
      cases zs with
      | nil => simp [lexInt] at h2
      | cons z zs => simp [lexInt]
  | cons x xs ih =>
    intro ys zs h1 h2
    cases ys with
    | nil => simp [lexInt] at h1
    | cons y ys =>
      cases zs with
      | nil => simp [lexInt] at h2
      | cons z zs =>
        simp only [lexInt] at h1 h2 ⊢
        rcases Nat.lt_trichotomy x y with hxy | hxy | hxy
        · rcases Nat.lt_trichotomy y z with hyz | hyz | hyz
          · rw [if_pos (Nat.lt_trans hxy hyz)]; norm_num
          · subst hyz; rw [if_pos hxy]; norm_num
          · rw [if_neg (Nat.lt_asymm hyz), if_pos hyz] at h2; norm_num at h2
        · subst hxy
          rw [if_neg (Nat.lt_irrefl x), if_neg (Nat.lt_irrefl x)] at h1
          rcases Nat.lt_trichotomy x z with hyz | hyz | hyz
          · rw [if_pos hyz]; norm_num
          · subst hyz
            rw [if_neg (Nat.lt_irrefl x), if_neg (Nat.lt_irrefl x)] at h2 ⊢
            exact ih ys zs h1 h2
          · rw [if_neg (Nat.lt_asymm hyz), if_pos hyz] at h2; norm_num at h2
        · rw [if_neg (Nat.lt_asymm hxy), if_pos hxy] at h1; norm_num at h1

theorem lexInt_zero_left {xs ys zs : List Nat} (h : lexInt xs ys = 0) :
    lexInt xs zs = lexInt ys zs := by
  rw [(lexInt_eq_zero_iff xs ys).mp h]

/-! Facts about `charRank`. -/

theorem char_toNat_inj {c d : Char} (h : c.toNat = d.toNat) : c = d :=
  Char.ext (UInt32.toNat.inj h)

theorem isLetterChar_toNat_le {c : Char} (h : isLetterChar c = true) :
    c.toNat ≤ 122 := by
  simp only [isLetterChar, Bool.or_eq_true, Bool.and_eq_true, decide_eq_true_eq] at h
  omega

theorem isLetterChar_ne_tilde {c : Char} (h : isLetterChar c = true) : c ≠ '~' := by
  intro heq
  rw [heq] at h
  exact absurd h (by decide)

theorem charRank_tilde : charRank '~' = 0 := rfl

theorem charRank_gt_one {c : Char} (h : c ≠ '~') : 1 < charRank c := by
  unfold charRank
  rw [if_neg h]
  split <;> omega

theorem charRank_letter {c : Char} (h : isLetterChar c = true) :
    charRank c = 2 + c.toNat := by
  unfold charRank
  rw [if_neg (isLetterChar_ne_tilde h), if_pos h]

theorem charRank_other {c : Char} (h1 : c ≠ '~') (h2 : isLetterChar c = false) :
    charRank c = 200 + c.toNat := by
  unfold charRank
  rw [if_neg h1, if_neg (by simp [h2])]

/-- If all four class-based branches of `debianLexicalCompare` fall through
and the code points compare strictly, so do the ranks. -/
theorem charRank_lt_of_toNat_lt {x y : Char}
    (h1 : ¬(x = '~' ∧ ¬y = '~')) (h2 : ¬(¬x = '~' ∧ y = '~'))
    (h3 : ¬(isLetterChar x = true ∧ isLetterChar y = false))
    (h4 : ¬(isLetterChar x = false ∧ isLetterChar y = true))
    (h5 : x.toNat < y.toNat) : charRank x < charRank y := by
  by_cases hx : x = '~'
  · have hy : y = '~' := by
      by_contra hy
      exact h1 ⟨hx, hy⟩
    subst hx; subst hy
    exact absurd h5 (by decide)
  · have hy : y ≠ '~' := fun heq => h2 ⟨hx, heq⟩
    cases hlx : isLetterChar x with
    | false =>
      have hly : isLetterChar y = false := by
        cases hly2 : isLetterChar y with
        | false => rfl
        | true => exact absurd ⟨hlx, hly2⟩ h4
      rw [charRank_other hx hlx, charRank_other hy hly]
      omega
    | true =>
      have hly : isLetterChar y = true := by
        cases hly2 : isLetterChar y with
        | false => exact absurd ⟨hlx, hly2⟩ h3
        | true => rfl
      rw [charRank_letter hlx, charRank_letter hly]
      omega

/-- One step of `debianLexicalCompare` agrees with comparing character ranks. -/
theorem dlc_cons_rank (x y : Char) (xs ys : List Char) :
    debianLexicalCompare (x :: xs) (y :: ys) =
      if charRank x < charRank y then -1
      else if charRank y < charRank x then 1
      else debianLexicalCompare xs ys := by
  simp only [debianLexicalCompare]
  set R := (if charRank x < charRank y then (-1 : Int)
    else if charRank y < charRank x then 1
    else debianLexicalCompare xs ys) with hR
  split_ifs with h1 h2 h3 h4 h5 h6
  · simp only [Bool.and_eq_true, Bool.not_eq_true', decide_eq_true_eq,
      decide_eq_false_iff_not] at h1
    obtain ⟨hx, hy⟩ := h1
    subst hx
    have hgt := charRank_gt_one hy
    rw [hR, if_pos (by rw [charRank_tilde]; omega)]
  · simp only [Bool.and_eq_true, Bool.not_eq_true', decide_eq_true_eq,
      decide_eq_false_iff_not] at h2
    obtain ⟨hx, hy⟩ := h2
    subst hy
    have hgt := charRank_gt_one hx
    rw [hR, if_neg (by rw [charRank_tilde]; omega), if_pos (by rw [charRank_tilde]; omega)]
  · simp only [Bool.and_eq_true, Bool.not_eq_true', decide_eq_true_eq,
      decide_eq_false_iff_not] at h2 h3
    obtain ⟨hlx, hly⟩ := h3
    have hx : x ≠ '~' := isLetterChar_ne_tilde hlx
    have hy : y ≠ '~' := fun heq => h2 ⟨hx, heq⟩
    have hlt : charRank x < charRank y := by
      rw [charRank_letter hlx, charRank_other hy hly]
      have := isLetterChar_toNat_le hlx
      omega
    rw [hR, if_pos hlt]
  · simp only [Bool.and_eq_true, Bool.not_eq_true', decide_eq_true_eq,
      decide_eq_false_iff_not] at h1 h4
    obtain ⟨hlx, hly⟩ := h4
    have hy : y ≠ '~' := isLetterChar_ne_tilde hly
    have hx : x ≠ '~' := fun heq => h1 ⟨heq, hy⟩
    have hlt : charRank y < charRank x := by
      rw [charRank_letter hly, charRank_other hx hlx]
      have := isLetterChar_toNat_le hly
      omega
    rw [hR, if_neg (by omega), if_pos hlt]
  · simp only [Bool.and_eq_true, Bool.not_eq_true', decide_eq_true_eq,
      decide_eq_false_iff_not] at h1 h2 h3 h4
    have hlt : charRank x < charRank y := charRank_lt_of_toNat_lt h1 h2 h3 h4 h5
    rw [hR, if_pos hlt]
  · simp only [Bool.and_eq_true, Bool.not_eq_true', decide_eq_true_eq,
      decide_eq_false_iff_not] at h1 h2 h3 h4
    have hlt : charRank y < charRank x :=
      charRank_lt_of_toNat_lt (fun h => h2 ⟨h.2, h.1⟩) (fun h => h1 ⟨h.2, h.1⟩)
        (fun h => h4 ⟨h.2, h.1⟩) (fun h => h3 ⟨h.2, h.1⟩) h6
    rw [hR, if_neg (by omega), if_pos hlt]
  · have ht : x.toNat = y.toNat := by omega
    have hxy : x = y := char_toNat_inj ht
    subst hxy
    rw [hR, if_neg (Nat.lt_irrefl _), if_neg (Nat.lt_irrefl _)]

/-- `debianLexicalCompare` is the lexicographic comparison of rank sequences. -/
theorem dlc_eq_lexInt : ∀ a b : List Char, debianLexicalCompare a b = lexInt (ranks a) (ranks b) := by
  intro a
  induction a with
  | nil =>
    intro b
    cases b with
    | nil => rfl
    | cons y ys =>
      by_cases hy : y = '~'
      · subst hy; rfl
      · have h2 := charRank_gt_one hy
        simp only [debianLexicalCompare, ranks, List.map_nil, List.nil_append,
          List.map_cons, List.cons_append, lexInt]
        rw [if_neg hy, if_pos h2]
  | cons x xs ih =>
    intro b
    cases b with
    | nil =>
      by_cases hx : x = '~'
      · subst hx; rfl
      · have h2 := charRank_gt_one hx
        simp only [debianLexicalCompare, ranks, List.map_cons, List.cons_append,
          List.map_nil, List.nil_append, lexInt]
        rw [if_neg hx, if_neg (by omega : ¬ charRank x < 1), if_pos h2]
    | cons y ys =>
      rw [dlc_cons_rank]
      have hr1 : ranks (x :: xs) = charRank x :: ranks xs := by simp [ranks]
      have hr2 : ranks (y :: ys) = charRank y :: ranks ys := by simp [ranks]
      rw [hr1, hr2]
      simp only [lexInt]
      split_ifs <;> first | rfl | exact ih ys

/-! ## Comparator laws

`CmpLaws cmp` packages the facts making a three-way `Int` comparator a
total preorder: sign antisymmetry, transitivity of the strict part, and
substitutivity of the equivalence part. -/

structure CmpLaws {α : Type _} (cmp : α → α → Int) : Prop where
  antisym : ∀ x y, cmp x y = -cmp y x
  trans_neg : ∀ x y z, cmp x y < 0 → cmp y z < 0 → cmp x z < 0
  zero_left : ∀ x y z, cmp x y = 0 → cmp x z = cmp y z

theorem CmpLaws.refl_zero {α : Type _} {cmp : α → α → Int} (L : CmpLaws cmp) (x : α) :
    cmp x x = 0 := by
  have h := L.antisym x x
  omega

theorem CmpLaws.zero_symm {α : Type _} {cmp : α → α → Int} (L : CmpLaws cmp) {x y : α}
    (h : cmp x y = 0) : cmp y x = 0 := by
  have h2 := L.antisym x y
  omega

theorem CmpLaws.zero_right {α : Type _} {cmp : α → α → Int} (L : CmpLaws cmp) {x y z : α}
    (h : cmp y z = 0) : cmp x y = cmp x z := by
  have h1 := L.antisym x y
  have h2 := L.antisym x z
  rw [h1, h2, L.zero_left y z x h]

theorem CmpLaws.neg_of_nonpos_neg {α : Type _} {cmp : α → α → Int} (L : CmpLaws cmp)
    {x y z : α} (h1 : cmp x y ≤ 0) (h2 : cmp y z < 0) : cmp x z < 0 := by
  rcases lt_or_eq_of_le h1 with h | h
  · exact L.trans_neg x y z h h2
  · rw [L.zero_left x y z h]; exact h2

theorem CmpLaws.neg_of_neg_nonpos {α : Type _} {cmp : α → α → Int} (L : CmpLaws cmp)
    {x y z : α} (h1 : cmp x y < 0) (h2 : cmp y z ≤ 0) : cmp x z < 0 := by
  rcases lt_or_eq_of_le h2 with h | h
  · exact L.trans_neg x y z h1 h
  · rw [← L.zero_right h]; exact h1

/-- The laws for `lexInt`. -/
theorem lexInt_laws : CmpLaws lexInt :=
  ⟨lexInt_antisym, lexInt_trans_neg, fun _ _ _ h => lexInt_zero_left h⟩

/-- The laws for `debianLexicalCompare`, obtained through the rank model. -/
theorem dlc_laws : CmpLaws debianLexicalCompare := by
  constructor
  · intro x y
    rw [dlc_eq_lexInt, dlc_eq_lexInt, lexInt_antisym]
  · intro x y z h1 h2
    rw [dlc_eq_lexInt] at h1 h2 ⊢
    exact lexInt_trans_neg _ _ _ h1 h2
  · intro x y z h
    rw [dlc_eq_lexInt] at h ⊢
    rw [dlc_eq_lexInt, lexInt_zero_left h]

/-- `charRank` is injective. -/
theorem charRank_inj {c d : Char} (h : charRank c = charRank d) : c = d := by
  by_cases hc : c = '~' <;> by_cases hd : d = '~'
  · rw [hc, hd]
  · exfalso
    rw [hc, charRank_tilde] at h
    have := charRank_gt_one hd
    omega
  · exfalso
    rw [hd, charRank_tilde] at h
    have := charRank_gt_one hc
    omega
  · cases hlc : isLetterChar c with
    | true =>
      cases hld : isLetterChar d with
      | true =>
        rw [charRank_letter hlc, charRank_letter hld] at h
        exact char_toNat_inj (by omega)
      | false =>
        exfalso
        rw [charRank_letter hlc, charRank_other hd hld] at h
        have := isLetterChar_toNat_le hlc
        omega
    | false =>
      cases hld : isLetterChar d with
      | true =>
        exfalso
        rw [charRank_other hc hlc, charRank_letter hld] at h
        have := isLetterChar_toNat_le hld
        omega
      | false =>
        rw [charRank_other hc hlc, charRank_other hd hld] at h
        exact char_toNat_inj (by omega)

/-- `debianLexicalCompare` returns 0 exactly on equal strings. -/
theorem dlc_eq_zero_iff {a b : List Char} : debianLexicalCompare a b = 0 ↔ a = b := by
  rw [dlc_eq_lexInt, lexInt_eq_zero_iff]
  constructor
  · intro h
    have h2 : a.map charRank = b.map charRank := List.append_cancel_right h
    exact List.map_injective_iff.mpr (fun c d hcd => charRank_inj hcd) h2
  · intro h; rw [h]

/-! ## `compareSegments` (retention.go lines 367-413)

The Go loop alternately extracts a non-digit part and a digit part from the
current positions of both strings (`extractPart`, which is `takeWhile` /
`dropWhile` of the digit class from the current index), compares the
non-digit parts with `debianLexicalCompare` and the digit parts numerically,
and repeats until both strings are exhausted. -/

/-- Dropping a maximal non-digit run and then a maximal digit run strictly
shrinks a nonempty list (the two predicates are complementary). -/
theorem dropWhile_dropWhile_length_lt (l : List Char) (h : l ≠ []) :
    ((l.dropWhile (fun c => !isDigitChar c)).dropWhile isDigitChar).length < l.length := by
  cases l with
  | nil => exact absurd rfl h
  | cons c cs =>
    by_cases hc : isDigitChar c
    · have h1 : (c :: cs).dropWhile (fun x => !isDigitChar x) = c :: cs := by
        rw [List.dropWhile_cons]
        simp [hc]
      rw [h1, List.dropWhile_cons]
      simp only [hc, if_true]
      have h2 := (@List.dropWhile_sublist _ cs isDigitChar).length_le
      simp only [List.length_cons]
      omega
    · have h1 : (c :: cs).dropWhile (fun x => !isDigitChar x)
          = cs.dropWhile (fun x => !isDigitChar x) := by
        rw [List.dropWhile_cons]
        simp [hc]
      rw [h1]
      have h2 := (List.dropWhile_sublist (l := cs) (fun x => !isDigitChar x)).length_le
      have h3 := (List.dropWhile_sublist
        (l := cs.dropWhile (fun x => !isDigitChar x)) isDigitChar).length_le
      simp only [List.length_cons]
      omega

/-- Two successive `dropWhile`s never grow a list. -/
theorem dropWhile_dropWhile_length_le (l : List Char) :
    ((l.dropWhile (fun c => !isDigitChar c)).dropWhile isDigitChar).length ≤ l.length :=
  le_trans (List.dropWhile_sublist _).length_le (List.dropWhile_sublist _).length_le

/-- `compareSegments` from the source, on character lists. -/
def compareSegments (a b : List Char) : Int :=
  if h0 : a.isEmpty && b.isEmpty then 0
  else
    let nda := a.takeWhile (fun c => !isDigitChar c)
    let ndb := b.takeWhile (fun c => !isDigitChar c)
    let c1 := debianLexicalCompare nda ndb
    if c1 ≠ 0 then c1
    else
      let a1 := a.dropWhile (fun c => !isDigitChar c)
      let b1 := b.dropWhile (fun c => !isDigitChar c)
      let numA := parseInt (a1.takeWhile isDigitChar)
      let numB := parseInt (b1.takeWhile isDigitChar)
      if numA ≠ numB then (if numA < numB then -1 else 1)
      else compareSegments (a1.dropWhile isDigitChar) (b1.dropWhile isDigitChar)
termination_by a.length + b.length
decreasing_by
  rcases List.eq_nil_or_concat a with ha | ha
  · have hb : b ≠ [] := by
      intro hb
      rw [ha, hb] at h0
      exact h0 (by decide)
    have h1 := dropWhile_dropWhile_length_lt b hb
    have h2 := dropWhile_dropWhile_length_le a
    omega
  · have ha2 : a ≠ [] := by
      rcases ha with ⟨l2, c, rfl⟩
      simp
    have h1 := dropWhile_dropWhile_length_lt a ha2
    have h2 := dropWhile_dropWhile_length_le b
    omega

/-- String wrapper for `compareSegments`. -/
def compareSegStr (a b : String) : Int := compareSegments a.toList b.toList

/-- The list of (non-digit run, digit run) pairs of a string, in order:
the intrinsic decomposition walked by the `compareSegments` loop. -/
def runPairs (s : List Char) : List (List Char × List Char) :=
  if h0 : s.isEmpty then []
  else
    (s.takeWhile (fun c => !isDigitChar c),
      (s.dropWhile (fun c => !isDigitChar c)).takeWhile isDigitChar)
      :: runPairs ((s.dropWhile (fun c => !isDigitChar c)).dropWhile isDigitChar)
termination_by s.length
decreasing_by
  have hs : s ≠ [] := by
    intro h
    rw [h] at h0
    exact h0 (by decide)
  exact dropWhile_dropWhile_length_lt s hs

/-- Comparison of one (non-digit run, digit run) pair, exactly as one
iteration of the `compareSegments` loop compares it. -/
def pairCmp (x y : List Char × List Char) : Int :=
  let c := debianLexicalCompare x.1 y.1
  if c ≠ 0 then c
  else
    let numA := parseInt x.2
    let numB := parseInt y.2
    if numA ≠ numB then (if numA < numB then -1 else 1) else 0

/-- Lexicographic comparison of two lists where a missing element is the
padding value, stopping when both lists are exhausted. -/
def paddedLex {α : Type _} (cmp : α → α → Int) (pad : α) : List α → List α → Int
  | [], [] => 0
  | [], y :: ys =>
    let c := cmp pad y
    if c ≠ 0 then c else paddedLex cmp pad [] ys
  | x :: xs, [] =>
    let c := cmp x pad
    if c ≠ 0 then c else paddedLex cmp pad xs []
  | x :: xs, y :: ys =>
    let c := cmp x y
    if c ≠ 0 then c else paddedLex cmp pad xs ys
termination_by xs ys => xs.length + ys.length
decreasing_by all_goals (simp only [List.length_cons, List.length_nil]; omega)

theorem runPairs_nil : runPairs [] = [] := by
  rw [runPairs]
  rfl

theorem paddedLex_nil {α : Type _} (cmp : α → α → Int) (pad : α) :
    paddedLex cmp pad [] [] = 0 := by
  simp [paddedLex]

theorem runPairs_ne (s : List Char) (h : s ≠ []) :
    runPairs s =
      (s.takeWhile (fun c => !isDigitChar c),
        (s.dropWhile (fun c => !isDigitChar c)).takeWhile isDigitChar)
        :: runPairs ((s.dropWhile (fun c => !isDigitChar c)).dropWhile isDigitChar) := by
  rw [runPairs]
  rw [dif_neg (by
    intro h2
    exact h (by simpa using h2))]

theorem runPairs_head (s : List Char) :
    (runPairs s).headD ([], []) =
      (s.takeWhile (fun c => !isDigitChar c),
        (s.dropWhile (fun c => !isDigitChar c)).takeWhile isDigitChar) := by
  by_cases h : s = []
  · subst h
    rw [runPairs_nil]
    rfl
  · rw [runPairs_ne s h]
    rfl

theorem runPairs_tail (s : List Char) :
    (runPairs s).tail =
      runPairs ((s.dropWhile (fun c => !isDigitChar c)).dropWhile isDigitChar) := by
  by_cases h : s = []
  · subst h
    rw [runPairs_nil]
    simp [runPairs_nil]
  · rw [runPairs_ne s h]
    rfl

/-- Uniform one-step unfolding of `paddedLex` when at least one list is nonempty. -/
theorem paddedLex_step {α : Type _} (cmp : α → α → Int) (pad : α) (xs ys : List α)
    (h : ¬(xs = [] ∧ ys = [])) :
    paddedLex cmp pad xs ys =
      (if cmp (xs.headD pad) (ys.headD pad) ≠ 0 then cmp (xs.headD pad) (ys.headD pad)
       else paddedLex cmp pad xs.tail ys.tail) := by
  match xs, ys with
  | [], [] => exact absurd ⟨rfl, rfl⟩ h
  | [], y :: ys => simp [paddedLex]
  | x :: xs, [] => simp [paddedLex]
  | x :: xs, y :: ys => simp [paddedLex]

/-- `compareSegments` is the padded lexicographic comparison of the run-pair
decompositions of the two strings. -/
theorem compareSegments_eq_paddedLex_aux : ∀ (n : Nat) (a b : List Char),
    a.length + b.length ≤ n →
    compareSegments a b = paddedLex pairCmp ([], []) (runPairs a) (runPairs b) := by
  intro n
  induction n with
  | zero =>
    intro a b h
    have ha : a = [] := by
      cases a with
      | nil => rfl
      | cons c cs => simp at h
    have hb : b = [] := by
      cases b with
      | nil => rfl
      | cons c cs => simp at h
    subst ha; subst hb
    rw [compareSegments, runPairs_nil, dif_pos (by decide), paddedLex_nil]
  | succ n ih =>
    intro a b hlen
    by_cases hab : a = [] ∧ b = []
    · obtain ⟨rfl, rfl⟩ := hab
      rw [compareSegments, runPairs_nil, dif_pos (by decide), paddedLex_nil]
    · rw [compareSegments]
      rw [dif_neg (by
        intro h2
        simp only [Bool.and_eq_true, List.isEmpty_iff] at h2
        exact hab h2)]
      rw [paddedLex_step pairCmp ([], []) (runPairs a) (runPairs b) (by
        intro h2
        obtain ⟨h3, h4⟩ := h2
        rcases not_and_or.mp hab with h | h
        · rw [runPairs_ne a h] at h3
          cases h3
        · rw [runPairs_ne b h] at h4
          cases h4)]
      rw [runPairs_head, runPairs_head, runPairs_tail, runPairs_tail]
      have hrec : ((a.dropWhile (fun c => !isDigitChar c)).dropWhile isDigitChar).length
          + ((b.dropWhile (fun c => !isDigitChar c)).dropWhile isDigitChar).length ≤ n := by
        rcases not_and_or.mp hab with h | h
        · have h1 := dropWhile_dropWhile_length_lt a h
          have h2 := dropWhile_dropWhile_length_le b
          omega
        · have h1 := dropWhile_dropWhile_length_lt b h
          have h2 := dropWhile_dropWhile_length_le a
          omega
      by_cases hc1 : debianLexicalCompare (a.takeWhile (fun c => !isDigitChar c))
          (b.takeWhile (fun c => !isDigitChar c)) = 0
      · by_cases hnum : parseInt ((a.dropWhile (fun c => !isDigitChar c)).takeWhile isDigitChar)
            = parseInt ((b.dropWhile (fun c => !isDigitChar c)).takeWhile isDigitChar)
        · have hpc : pairCmp
              (a.takeWhile (fun c => !isDigitChar c),
                (a.dropWhile (fun c => !isDigitChar c)).takeWhile isDigitChar)
              (b.takeWhile (fun c => !isDigitChar c),
                (b.dropWhile (fun c => !isDigitChar c)).takeWhile isDigitChar) = 0 := by
            simp only [pairCmp]
            rw [if_neg (by simp [hc1]), if_neg (by simp [hnum])]
          have hne1 : ¬(debianLexicalCompare (a.takeWhile (fun c => !isDigitChar c))
              (b.takeWhile (fun c => !isDigitChar c)) ≠ 0) := by
            simp only [ne_eq, not_not]
            exact hc1
          have hne2 : ¬(parseInt ((a.dropWhile (fun c => !isDigitChar c)).takeWhile isDigitChar)
              ≠ parseInt ((b.dropWhile (fun c => !isDigitChar c)).takeWhile isDigitChar)) := by
            simp only [ne_eq, not_not]
            exact hnum
          rw [hpc, if_neg (by norm_num : ¬((0 : Int) ≠ 0)), if_neg hne1, if_neg hne2]
          exact ih _ _ hrec
        · have hpc : pairCmp
              (a.takeWhile (fun c => !isDigitChar c),
                (a.dropWhile (fun c => !isDigitChar c)).takeWhile isDigitChar)
              (b.takeWhile (fun c => !isDigitChar c),
                (b.dropWhile (fun c => !isDigitChar c)).takeWhile isDigitChar)
              = (if parseInt ((a.dropWhile (fun c => !isDigitChar c)).takeWhile isDigitChar)
                    < parseInt ((b.dropWhile (fun c => !isDigitChar c)).takeWhile isDigitChar)
                 then -1 else 1) := by
            simp only [pairCmp]
            rw [if_neg (by simp [hc1]), if_pos hnum]
          have hsign : (if parseInt ((a.dropWhile (fun c => !isDigitChar c)).takeWhile isDigitChar)
                < parseInt ((b.dropWhile (fun c => !isDigitChar c)).takeWhile isDigitChar)
              then (-1 : Int) else 1) ≠ 0 := by
            split <;> norm_num
          have hne1 : ¬(debianLexicalCompare (a.takeWhile (fun c => !isDigitChar c))
              (b.takeWhile (fun c => !isDigitChar c)) ≠ 0) := by
            simp only [ne_eq, not_not]
            exact hc1
          rw [hpc, if_pos hsign, if_neg hne1, if_pos hnum]
      · have hpc : pairCmp
            (a.takeWhile (fun c => !isDigitChar c),
              (a.dropWhile (fun c => !isDigitChar c)).takeWhile isDigitChar)
            (b.takeWhile (fun c => !isDigitChar c),
              (b.dropWhile (fun c => !isDigitChar c)).takeWhile isDigitChar)
            = debianLexicalCompare (a.takeWhile (fun c => !isDigitChar c))
                (b.takeWhile (fun c => !isDigitChar c)) := by
          simp only [pairCmp]
          rw [if_pos hc1]
        rw [hpc, if_pos hc1, if_pos hc1]

/-- `compareSegments` equals the padded lexicographic run comparison. -/
theorem compareSegments_eq_paddedLex (a b : List Char) :
    compareSegments a b = paddedLex pairCmp ([], []) (runPairs a) (runPairs b) :=
  compareSegments_eq_paddedLex_aux (a.length + b.length) a b le_rfl

/-! ## Comparator laws for the run comparison -/

theorem paddedLex_antisym_aux {α : Type _} {cmp : α → α → Int} (L : CmpLaws cmp) (pad : α) :
    ∀ (n : Nat) (xs ys : List α), xs.length + ys.length ≤ n →
    paddedLex cmp pad xs ys = -paddedLex cmp pad ys xs := by
  intro n
  induction n with
  | zero =>
    intro xs ys h
    have hx : xs = [] := by cases xs <;> simp_all
    have hy : ys = [] := by cases ys <;> simp_all
    subst hx; subst hy
    rw [paddedLex_nil]
    norm_num [paddedLex_nil]
  | succ n ih =>
    intro xs ys hlen
    by_cases hxy : xs = [] ∧ ys = []
    · obtain ⟨rfl, rfl⟩ := hxy
      rw [paddedLex_nil]
      norm_num [paddedLex_nil]
    · rw [paddedLex_step cmp pad xs ys hxy,
        paddedLex_step cmp pad ys xs (fun h => hxy ⟨h.2, h.1⟩)]
      have hanti := L.antisym (xs.headD pad) (ys.headD pad)
      by_cases hc : cmp (xs.headD pad) (ys.headD pad) = 0
      · have hc2 : cmp (ys.headD pad) (xs.headD pad) = 0 := by omega
        rw [if_neg (by simp only [ne_eq, not_not]; exact hc),
          if_neg (by simp only [ne_eq, not_not]; exact hc2)]
        apply ih
        have h1 := List.length_tail xs
        have h2 := List.length_tail ys
        rcases not_and_or.mp hxy with h | h
        · have : 1 ≤ xs.length := List.length_pos.mpr h
          omega
        · have : 1 ≤ ys.length := List.length_pos.mpr h
          omega
      · have hc2 : cmp (ys.headD pad) (xs.headD pad) ≠ 0 := by omega
        rw [if_pos hc, if_pos hc2]
        omega

theorem paddedLex_trans_neg_aux {α : Type _} {cmp : α → α → Int} (L : CmpLaws cmp) (pad : α) :
    ∀ (n : Nat) (xs ys zs : List α), xs.length + ys.length + zs.length ≤ n →
    paddedLex cmp pad xs ys < 0 → paddedLex cmp pad ys zs < 0 →
    paddedLex cmp pad xs zs < 0 := by
  intro n
  induction n with
  | zero =>
    intro xs ys zs h h1 h2
    have hx : xs = [] := by cases xs <;> simp_all
    have hy : ys = [] := by cases ys <;> simp_all
    subst hx; subst hy
    rw [paddedLex_nil] at h1
    omega
  | succ n ih =>
    intro xs ys zs hlen h1 h2
    by_cases hyy : xs = [] ∧ ys = []
    · obtain ⟨rfl, rfl⟩ := hyy
      rw [paddedLex_nil] at h1
      omega
    by_cases hzz : ys = [] ∧ zs = []
    · obtain ⟨rfl, rfl⟩ := hzz
      rw [paddedLex_nil] at h2
      omega
    by_cases hxz : xs = [] ∧ zs = []
    · obtain ⟨rfl, rfl⟩ := hxz
      exfalso
      have ha := paddedLex_antisym_aux L pad (ys.length + ys.length) [] ys
        (by simp only [List.length_nil]; omega)
      rw [ha] at h1
      omega
    rw [paddedLex_step cmp pad xs ys hyy] at h1
    rw [paddedLex_step cmp pad ys zs hzz] at h2
    rw [paddedLex_step cmp pad xs zs hxz]
    by_cases c12 : cmp (xs.headD pad) (ys.headD pad) = 0
    · rw [if_neg (by simp only [ne_eq, not_not]; exact c12)] at h1
      have e13 : cmp (xs.headD pad) (zs.headD pad) = cmp (ys.headD pad) (zs.headD pad) :=
        L.zero_left _ _ _ c12
      by_cases c23 : cmp (ys.headD pad) (zs.headD pad) = 0
      · rw [if_neg (by simp only [ne_eq, not_not]; exact c23)] at h2
        rw [if_neg (by simp only [ne_eq, not_not]; omega)]
        apply ih _ _ _ _ h1 h2
        have t1 := List.length_tail xs
        have t2 := List.length_tail ys
        have t3 := List.length_tail zs
        rcases not_and_or.mp hyy with h | h
        · have : 1 ≤ xs.length := List.length_pos.mpr h
          omega
        · have : 1 ≤ ys.length := List.length_pos.mpr h
          omega
      · rw [if_pos c23] at h2
        rw [if_pos (by omega)]
        omega
    · rw [if_pos c12] at h1
      by_cases c23 : cmp (ys.headD pad) (zs.headD pad) = 0
      · have e13 : cmp (xs.headD pad) (zs.headD pad) = cmp (xs.headD pad) (ys.headD pad) :=
          L.zero_right (L.zero_symm c23)
        rw [if_pos (by omega)]
        omega
      · rw [if_pos c23] at h2
        have e13 := L.trans_neg (xs.headD pad) (ys.headD pad) (zs.headD pad) h1 h2
        rw [if_pos (by omega)]
        omega

theorem paddedLex_zero_left_aux {α : Type _} {cmp : α → α → Int} (L : CmpLaws cmp) (pad : α) :
    ∀ (n : Nat) (xs ys zs : List α), xs.length + ys.length + zs.length ≤ n →
    paddedLex cmp pad xs ys = 0 →
    paddedLex cmp pad xs zs = paddedLex cmp pad ys zs := by
  intro n
  induction n with
  | zero =>
    intro xs ys zs h h1
    have hx : xs = [] := by cases xs <;> simp_all
    have hy : ys = [] := by cases ys <;> simp_all
    subst hx; subst hy
    rfl
  | succ n ih =>
    intro xs ys zs hlen h1
    by_cases hyy : xs = [] ∧ ys = []
    · obtain ⟨rfl, rfl⟩ := hyy
      rfl
    rw [paddedLex_step cmp pad xs ys hyy] at h1
    have hc12 : cmp (xs.headD pad) (ys.headD pad) = 0 := by
      by_contra hc
      rw [if_pos hc] at h1
      exact hc h1
    rw [if_neg (by simp only [ne_eq, not_not]; exact hc12)] at h1
    by_cases hxz : xs = [] ∧ zs = []
    · obtain ⟨rfl, rfl⟩ := hxz
      have hy : ys ≠ [] := fun h => hyy ⟨rfl, h⟩
      have ha := paddedLex_antisym_aux L pad (ys.length + ys.length) ys []
        (by simp only [List.length_nil]; omega)
      rw [paddedLex_nil, ha]
      have hxy0 : paddedLex cmp pad [] ys = 0 := by
        rw [paddedLex_step cmp pad [] ys (fun h => hy h.2)]
        rw [if_neg (by simp only [ne_eq, not_not]; exact hc12)]
        simpa using h1
      rw [hxy0]
      norm_num
    by_cases hyz : ys = [] ∧ zs = []
    · obtain ⟨rfl, rfl⟩ := hyz
      have hx : xs ≠ [] := fun h => hyy ⟨h, rfl⟩
      rw [paddedLex_nil]
      rw [paddedLex_step cmp pad xs [] (fun h => hx h.1)]
      rw [if_neg (by simp only [ne_eq, not_not]; exact hc12)]
      simpa using h1
    rw [paddedLex_step cmp pad xs zs hxz, paddedLex_step cmp pad ys zs hyz]
    have e : cmp (xs.headD pad) (zs.headD pad) = cmp (ys.headD pad) (zs.headD pad) :=
      L.zero_left _ _ _ hc12
    rw [e]
    by_cases hc2 : cmp (ys.headD pad) (zs.headD pad) = 0
    · rw [if_neg (by simp only [ne_eq, not_not]; exact hc2),
        if_neg (by simp only [ne_eq, not_not]; exact hc2)]
      apply ih _ _ _ _ h1
      have t1 := List.length_tail xs
      have t2 := List.length_tail ys
      have t3 := List.length_tail zs
      rcases not_and_or.mp hyy with h | h
      · have : 1 ≤ xs.length := List.length_pos.mpr h
        omega
      · have : 1 ≤ ys.length := List.length_pos.mpr h
        omega
    · rw [if_pos hc2, if_pos hc2]

/-- The padded lexicographic lifting preserves the comparator laws. -/
theorem paddedLex_laws {α : Type _} {cmp : α → α → Int} (L : CmpLaws cmp) (pad : α) :
    CmpLaws (paddedLex cmp pad) := by
  constructor
  · intro x y
    exact paddedLex_antisym_aux L pad (x.length + y.length) x y le_rfl
  · intro x y z h1 h2
    exact paddedLex_trans_neg_aux L pad (x.length + y.length + z.length) x y z le_rfl h1 h2
  · intro x y z h
    exact paddedLex_zero_left_aux L pad (x.length + y.length + z.length) x y z le_rfl h

/-- Numeric comparison of digit runs, as one loop iteration performs it. -/
def numCmp (x y : List Char) : Int :=
  if parseInt x ≠ parseInt y then (if parseInt x < parseInt y then -1 else 1) else 0

theorem numCmp_laws : CmpLaws numCmp := by
  constructor
  · intro x y
    unfold numCmp
    split_ifs <;> omega
  · intro x y z h1 h2
    unfold numCmp at h1 h2 ⊢
    split_ifs at h1 h2 ⊢ <;> omega
  · intro x y z h
    have hxy : parseInt x = parseInt y := by
      by_contra hne
      unfold numCmp at h
      rw [if_pos hne] at h
      split_ifs at h <;> omega
    unfold numCmp
    rw [hxy]

/-- Lexicographic combination of two lawful comparators on pairs. -/
theorem combineCmp_laws {α β : Type _} {c1 : α → α → Int} {c2 : β → β → Int}
    (L1 : CmpLaws c1) (L2 : CmpLaws c2) :
    CmpLaws (fun (x y : α × β) => if c1 x.1 y.1 ≠ 0 then c1 x.1 y.1 else c2 x.2 y.2) := by
  constructor
  · intro x y
    have ha := L1.antisym x.1 y.1
    by_cases h : c1 x.1 y.1 = 0
    · have h2 : c1 y.1 x.1 = 0 := by omega
      rw [if_neg (by simp only [ne_eq, not_not]; exact h),
        if_neg (by simp only [ne_eq, not_not]; exact h2)]
      exact L2.antisym x.2 y.2
    · have h2 : c1 y.1 x.1 ≠ 0 := by omega
      rw [if_pos h, if_pos h2]
      omega
  · intro x y z h1 h2
    by_cases a12 : c1 x.1 y.1 = 0
    · rw [if_neg (by simp only [ne_eq, not_not]; exact a12)] at h1
      have e : c1 x.1 z.1 = c1 y.1 z.1 := L1.zero_left _ _ _ a12
      by_cases a23 : c1 y.1 z.1 = 0
      · rw [if_neg (by simp only [ne_eq, not_not]; exact a23)] at h2
        rw [if_neg (by simp only [ne_eq, not_not]; omega)]
        exact L2.trans_neg _ _ _ h1 h2
      · rw [if_pos a23] at h2
        rw [if_pos (by omega)]
        omega
    · rw [if_pos a12] at h1
      by_cases a23 : c1 y.1 z.1 = 0
      · have e : c1 x.1 z.1 = c1 x.1 y.1 := L1.zero_right (L1.zero_symm a23)
        rw [if_pos (by omega)]
        omega
      · rw [if_pos a23] at h2
        have e := L1.trans_neg x.1 y.1 z.1 h1 h2
        rw [if_pos (by omega)]
        omega
  · intro x y z h
    have a12 : c1 x.1 y.1 = 0 := by
      by_contra hc
      rw [if_pos hc] at h
      exact hc h
    rw [if_neg (by simp only [ne_eq, not_not]; exact a12)] at h
    have e1 : c1 x.1 z.1 = c1 y.1 z.1 := L1.zero_left _ _ _ a12
    have e2 : c2 x.2 z.2 = c2 y.2 z.2 := L2.zero_left _ _ _ h
    rw [e1, e2]

/-- The laws for `pairCmp`. -/
theorem pairCmp_laws : CmpLaws pairCmp := by
  have h := combineCmp_laws dlc_laws numCmp_laws
  have he : pairCmp = fun (x y : List Char × List Char) =>
      if debianLexicalCompare x.1 y.1 ≠ 0 then debianLexicalCompare x.1 y.1
      else numCmp x.2 y.2 := rfl
  rw [he]
  exact h

/-- The laws for `compareSegments`: sign antisymmetry, strict transitivity
and substitutivity, i.e. the Debian segment ordering is a total preorder. -/
theorem compareSegments_laws : CmpLaws compareSegments := by
  have L := paddedLex_laws pairCmp_laws ([], [])
  constructor
  · intro x y
    rw [compareSegments_eq_paddedLex, compareSegments_eq_paddedLex]
    exact L.antisym _ _
  · intro x y z h1 h2
    rw [compareSegments_eq_paddedLex] at h1 h2 ⊢
    exact L.trans_neg _ _ _ h1 h2
  · intro x y z h
    rw [compareSegments_eq_paddedLex] at h ⊢
    rw [compareSegments_eq_paddedLex, L.zero_left _ _ _ h]

/-! ## Debian version comparison (spec §3)

`Repository.updateLatest` compares versions with aptly's
`deb.CompareVersions`, which is a third-party dependency whose source is not
part of this repository. -/

/-- Three-way comparison of integers. -/
def intCmpI (a b : Int) : Int := if a ≠ b then (if a < b then -1 else 1) else 0

theorem intCmpI_laws : CmpLaws intCmpI := by
  constructor
  · intro x y
    unfold intCmpI
    split_ifs <;> omega
  · intro x y z h1 h2
    unfold intCmpI at h1 h2 ⊢
    split_ifs at h1 h2 ⊢ <;> omega
  · intro x y z h
    have hxy : x = y := by
      by_contra hne
      unfold intCmpI at h
      rw [if_pos hne] at h
      split_ifs at h <;> omega
    rw [hxy]

/-- Modelled from the spec: split `[epoch:]upstream[-revision]` — the epoch
is the numeric part before the first colon (0 when absent), the revision is
the part after the last dash (empty when absent), the upstream is what
remains. -/
def splitDebVersion (s : List Char) : Int × List Char × List Char :=
  let (epoch, rest) :=
    if s.contains ':' then
      (parseInt (s.takeWhile (fun c => !(c = ':'))),
        (s.dropWhile (fun c => !(c = ':'))).tail)
    else ((0 : Int), s)
  if rest.contains '-' then
    (epoch, ((rest.reverse.dropWhile (fun c => !(c = '-'))).tail).reverse,
      (rest.reverse.takeWhile (fun c => !(c = '-'))).reverse)
  else (epoch, rest, [])

/-- Modelled from the spec: Debian version comparison (`deb.CompareVersions`
of the aptly dependency, not in this repository's sources).  Spec §3:
compare the epoch numerically, then the upstream part and then the revision
by the Debian segment ordering; a missing revision equals the empty
revision; an empty digit run equals zero. -/
def CompareVersions (v1 v2 : String) : Int :=
  let p1 := splitDebVersion v1.toList
  let p2 := splitDebVersion v2.toList
  if intCmpI p1.1 p2.1 ≠ 0 then intCmpI p1.1 p2.1
  else if compareSegments p1.2.1 p2.2.1 ≠ 0 then compareSegments p1.2.1 p2.2.1
  else compareSegments p1.2.2 p2.2.2

/-- Comparator laws survive precomposition. -/
theorem comapCmp_laws {α β : Type _} {cmp : β → β → Int} (L : CmpLaws cmp) (f : α → β) :
    CmpLaws (fun a b => cmp (f a) (f b)) := by
  constructor
  · intro x y
    exact L.antisym (f x) (f y)
  · intro x y z h1 h2
    exact L.trans_neg (f x) (f y) (f z) h1 h2
  · intro x y z h
    exact L.zero_left (f x) (f y) (f z) h

/-- The laws for `CompareVersions`: the Debian version ordering is a total
preorder. -/
theorem CompareVersions_laws : CmpLaws CompareVersions := by
  have L := comapCmp_laws
    (combineCmp_laws intCmpI_laws (combineCmp_laws compareSegments_laws compareSegments_laws))
    (fun v : String => splitDebVersion v.toList)
  have he : CompareVersions = fun v1 v2 =>
      (fun (x y : Int × List Char × List Char) =>
        if intCmpI x.1 y.1 ≠ 0 then intCmpI x.1 y.1
        else if compareSegments x.2.1 y.2.1 ≠ 0 then compareSegments x.2.1 y.2.1
        else compareSegments x.2.2 y.2.2)
      (splitDebVersion v1.toList) (splitDebVersion v2.toList) := rfl
  rw [he]
  exact L

/-! ## Retention engine (internal/common retention.go) -/

/-- `NoMatchBehavior` from the source. -/
inductive NoMatchBehavior where
  | keep
  | ignore
  | error
deriving DecidableEq

/-- The sentinel errors of retention.go, as an error kind type. -/
inductive RetErr where
  | emptyPattern
  | noSegments
  | expectedDelimiter
  | amountMismatch
  | versionNotMatchPattern
  | noMatchingPattern
deriving DecidableEq

/-- `RetentionRule` from the source (`pattern`, `amount[]`). -/
structure RetentionRule where
  Pattern : String
  Amount : List Int
deriving DecidableEq

/-- Parsed pattern structure (`pattern` in the source). -/
structure pattern where
  delimiters : List Char
  trackedIndices : List Nat
  segmentCount : Nat
deriving DecidableEq

/-- Parsed version (`version` in the source). -/
structure version where
  raw : String
  segments : List String
deriving DecidableEq

/-- The loop of `parsePattern`: walk the runes, collecting the first rune of
each delimiter run between segments and the indices of `#` segments. -/
def parsePatternLoop : List Char → List Char → List Char → List Nat → Nat →
    Except RetErr (List Char × List Nat × Nat)
  | [], delims, _, tracked, segCount => .ok (delims, tracked, segCount)
  | r :: rest, delims, delimBuf, tracked, segCount =>
    if r = '*' ∨ r = '#' then
      if 0 < segCount then
        match delimBuf with
        | [] => .error .expectedDelimiter
        | d :: _ =>
          parsePatternLoop rest (delims ++ [d]) []
            (if r = '#' then tracked ++ [segCount] else tracked) (segCount + 1)
      else
        parsePatternLoop rest delims []
          (if r = '#' then tracked ++ [segCount] else tracked) (segCount + 1)
    else
      parsePatternLoop rest delims (delimBuf ++ [r]) tracked segCount

/-- `parsePattern` from the source. -/
def parsePattern (s : String) : Except RetErr pattern :=
  if s = "" then .error .emptyPattern
  else
    match parsePatternLoop s.toList [] [] [] 0 with
    | .error e => .error e
    | .ok (delims, tracked, segCount) =>
      if segCount = 0 then .error .noSegments
      else .ok ⟨delims, tracked, segCount⟩

/-- The split loop of `parseVersion`: split on any delimiter rune, skipping
empty segments. -/
def splitSegs (delims : List Char) : List Char → List Char → List String
  | [], buf => if buf.isEmpty then [] else [String.mk buf]
  | c :: cs, buf =>
    if delims.contains c then
      if buf.isEmpty then splitSegs delims cs []
      else String.mk buf :: splitSegs delims cs []
    else splitSegs delims cs (buf ++ [c])

/-- `parseVersion` from the source. -/
def parseVersion (s : String) (p : pattern) : Except RetErr version :=
  if s = "" then .error .versionNotMatchPattern
  else
    let segments := splitSegs p.delimiters s.toList []
    if segments.length ≠ p.segmentCount then .error .versionNotMatchPattern
    else .ok ⟨s, segments⟩

/-- `RetentionFilter` from the source (the mutex and collected items are
conversation state of `Add`/`Kept` and are not needed for `Filter`). -/
structure RetentionFilter (T : Type _) where
  rules : List RetentionRule
  patterns : List pattern
  getVersion : T → String
  noMatchBehavior : NoMatchBehavior

/-- The pattern-construction part of `NewRetentionFilter`. -/
def buildPatterns : List RetentionRule → Except RetErr (List pattern)
  | [] => .ok []
  | rule :: rest =>
    match parsePattern rule.Pattern with
    | .error e => .error e
    | .ok p =>
      if rule.Amount.length ≠ p.trackedIndices.length then .error .amountMismatch
      else
        match buildPatterns rest with
        | .error e => .error e
        | .ok ps => .ok (p :: ps)

/-- `NewRetentionFilter` from the source. -/
def NewRetentionFilter {T : Type _} (rules : List RetentionRule) (getVersion : T → String)
    (noMatchBehavior : NoMatchBehavior) : Except RetErr (RetentionFilter T) :=
  match buildPatterns rules with
  | .error e => .error e
  | .ok ps => .ok ⟨rules, ps, getVersion, noMatchBehavior⟩

/-- The loop of `findApplicableRules`: most segments win, ties accumulate. -/
def findLoop (v : String) : List (Nat × pattern) → Nat → List Nat → List Nat
  | [], _, acc => acc
  | (i, p) :: rest, maxC, acc =>
    match parseVersion v p with
    | .error _ => findLoop v rest maxC acc
    | .ok _ =>
      if maxC < p.segmentCount then findLoop v rest p.segmentCount [i]
      else if p.segmentCount = maxC then findLoop v rest maxC (acc ++ [i])
      else findLoop v rest maxC acc

/-- `findApplicableRules` from the source. -/
def RetentionFilter.findApplicableRules {T : Type _} (f : RetentionFilter T)
    (versionStr : String) : List Nat :=
  findLoop versionStr f.patterns.enum 0 []

/-- `compareVersions` from the source: segment-by-segment comparison over
the first argument's indices.  Both arguments always carry the pattern's
segment count at every call site, so the out-of-range access on `b` that Go
would panic on is modelled by an empty-segment default. -/
def cmpSegLists : List String → List String → Int
  | [], _ => 0
  | x :: xs, ys =>
    let c := compareSegStr x (ys.headD "")
    if c ≠ 0 then c else cmpSegLists xs ys.tail

/-- `compareVersions` (the `RetentionFilter` method; it does not use the
receiver). -/
def compareVersions (a b : version) : Int := cmpSegLists a.segments b.segments

/-- Deduplication keeping first occurrences: the set of keys of a Go map in
insertion order of first writes. -/
def firstDedup {α : Type _} [DecidableEq α] : List α → List α
  | [] => []
  | a :: l => a :: firstDedup (l.filter (fun x => x ≠ a))
termination_by l => l.length
decreasing_by
  have := List.length_filter_le (fun x => x ≠ a) l
  simp only [List.length_cons]
  omega

/-- Grouping by a string key, modelling a Go `map[string][]T` populated by
appends: each key maps to the sublist of elements with that key.  Go
iterates the groups in unspecified map order; this model fixes
first-occurrence order, which no claim depends on (results are consumed as
sets). -/
def groupPairs {α : Type _} (key : α → String) (vs : List α) : List (String × List α) :=
  (firstDedup (vs.map key)).map (fun k => (k, vs.filter (fun v => key v = k)))

/-- `retainLevel` from the source.  The `level` index into
`trackedIndices`/`amounts` is modelled by consuming the zipped list; Go's
unstable `slices.SortFunc` is modelled with a (stable) merge sort over the
same descending comparison — no claim depends on the order of ties. -/
def retainLevel (versions : List version) : List (Nat × Int) → List String
  | [] =>
    match versions with
    | [] => []
    | v :: vs =>
      [(vs.foldl (fun best w => if compareVersions w best > 0 then w else best) v).raw]
  | (idx, amount) :: rest =>
    let groups := groupPairs (fun v => String.intercalate ":" (v.segments.take idx)) versions
    groups.flatMap (fun g =>
      let pairs := groupPairs (fun v => v.segments.getD idx "") g.2
      let sorted := pairs.mergeSort (fun a b => decide (0 ≤ compareSegStr a.1 b.1))
      let taken := sorted.take (min amount (Int.ofNat pairs.length)).toNat
      taken.flatMap (fun pr => retainLevel pr.2 rest))

/-- Sufficient condition for `retainLevel` to keep every version: at each
level every amount covers the number of distinct tracked-segment values of
every group, and the versions of each final leaf all share one raw string. -/
def coversAll (versions : List version) : List (Nat × Int) → Bool
  | [] => versions.all (fun v => versions.all (fun w => v.raw = w.raw))
  | (idx, amount) :: rest =>
    (groupPairs (fun v => String.intercalate ":" (v.segments.take idx)) versions).all
      (fun g =>
        let pairs := groupPairs (fun v => v.segments.getD idx "") g.2
        decide ((pairs.length : Int) ≤ amount) &&
          pairs.all (fun pr => coversAll pr.2 rest))

/-- `applyRetention` from the source (`trackedIndices` and `amounts` always
have equal length, enforced by `NewRetentionFilter`). -/
def RetentionFilter.applyRetention {T : Type _} (_f : RetentionFilter T)
    (versions : List version) (trackedIndices : List Nat) (amounts : List Int) : List String :=
  if versions.isEmpty then [] else retainLevel versions (trackedIndices.zip amounts)

/-- The items assigned to rule `i` by the grouping loop of `Filter`. -/
def RetentionFilter.ruleGroup {T : Type _} (f : RetentionFilter T) (items : List T)
    (i : Nat) : List T :=
  items.filter (fun it => (f.findApplicableRules (f.getVersion it)).contains i)

/-- The parsed versions of rule `i`'s group (parse failures are skipped,
as in the source, where they cannot occur). -/
def RetentionFilter.ruleVersions {T : Type _} (f : RetentionFilter T) (items : List T)
    (i : Nat) : List version :=
  (f.ruleGroup items i).filterMap (fun it =>
    match parseVersion (f.getVersion it) (f.patterns.getD i ⟨[], [], 0⟩) with
    | .ok v => some v
    | .error _ => none)

/-- The retained raw versions contributed by all rule groups (the keep set
minus the no-match items). -/
def RetentionFilter.keepList {T : Type _} (f : RetentionFilter T) (items : List T) :
    List String :=
  (List.range f.rules.length).flatMap (fun i =>
    f.applyRetention (f.ruleVersions items i)
      (f.patterns.getD i ⟨[], [], 0⟩).trackedIndices (f.rules.getD i ⟨"", []⟩).Amount)

/-- The items matching no pattern. -/
def RetentionFilter.noMatchItems {T : Type _} (f : RetentionFilter T) (items : List T) :
    List T :=
  items.filter (fun it => (f.findApplicableRules (f.getVersion it)).isEmpty)

/-- `Filter` from the source: group items by their applicable rules, apply
hierarchical retention per rule, union the kept version strings (a set,
modelled as a membership list), handle no-match items per behavior, and
return the input items whose version is in the keep set, in input order. -/
def RetentionFilter.Filter {T : Type _} (f : RetentionFilter T) (items : List T) :
    Except RetErr (List T) :=
  if f.noMatchBehavior = .error ∧ (f.noMatchItems items).isEmpty = false then
    .error .noMatchingPattern
  else
    let keep := f.keepList items
      ++ (if f.noMatchBehavior = .keep then (f.noMatchItems items).map f.getVersion else [])
    .ok (items.filter (fun it => keep.contains (f.getVersion it)))

/-! ## Repository `latest` tracking (debext repository.go) -/

/-- The package fields read by `updateLatest` and its key computation. -/
structure DebPackage where
  Name : String
  Version : String
  Architecture : String
deriving DecidableEq

/-- The `latest[name][distribution][arch]` matrix, modelled as a total
function with `none` for missing entries. -/
def LatestMap : Type := String → String → String → Option DebPackage

/-- The empty `latest` matrix of `NewRepository`. -/
def emptyLatest : LatestMap := fun _ _ _ => none

/-- `Repository.updateLatest` from the source: update the matrix entry for
`(pkg.Name, distribution, arch)` only when there is no existing entry or the
existing version compares strictly smaller (`cmp <= 0` keeps the existing
package). -/
def Repository.updateLatest (latest : LatestMap) (pkg : DebPackage)
    (distribution arch : String) : LatestMap :=
  fun n d a =>
    if n = pkg.Name ∧ d = distribution ∧ a = arch then
      match latest pkg.Name distribution arch with
      | none => some pkg
      | some existingPkg =>
        if CompareVersions pkg.Version existingPkg.Version ≤ 0 then some existingPkg
        else some pkg
    else latest n d a

/-- The `latest`-index effect of `Repository.AddPackage` from the source:
`updateLatest(pkg, distribution, pkg.Architecture)`.  The `PackageList`
bookkeeping of `AddPackage` never touches `latest`; its error path (an
aptly conflict for an identical package key) is not modelled. -/
def Repository.AddPackage (latest : LatestMap) (pkg : DebPackage)
    (distribution : String) : LatestMap :=
  Repository.updateLatest latest pkg distribution pkg.Architecture

/-- A sequence of `AddPackage` calls, each a (package, distribution) pair. -/
def Repository.addAll (calls : List (DebPackage × String)) (latest : LatestMap) : LatestMap :=
  calls.foldl (fun m pc => Repository.AddPackage m pc.1 pc.2) latest

/-! ## Signature verifier (debext verifier.go) -/

/-- `Verifier` configuration toggles. -/
structure Verifier where
  AcceptUnsigned : Bool
  IgnoreSignatures : Bool

/-- Abstract state of a seekable input handed to `VerifyAndClear`:
whether `IsClearSigned` detects a clearsigned wrapper (its own error path is
not modelled), the cleartext `ExtractClearsigned` would produce, the raw
content, and the outcome and good keys of `VerifyClearsigned`. -/
structure SignedInput where
  isClearSigned : Bool
  cleartext : String
  raw : String
  sigValid : Bool
  goodKeys : List String

/-- Outcome of `VerifyAndClear`: the reader content with the key list, or
one of the two sentinel errors. -/
inductive VerifyResult where
  | cleartext (content : String) (keys : List String)
  | passthrough (content : String)
  | errMissingSignature
  | errSignatureInvalid
deriving DecidableEq

/-- `Verifier.VerifyAndClear` from the source; the second component records
whether `VerifyClearsigned` was invoked (signature verification performed). -/
def Verifier.VerifyAndClear (v : Verifier) (file : SignedInput) : VerifyResult × Bool :=
  if !file.isClearSigned && !v.AcceptUnsigned then (.errMissingSignature, false)
  else if v.IgnoreSignatures then
    if file.isClearSigned then (.cleartext file.cleartext [], false)
    else (.passthrough file.raw, false)
  else if file.isClearSigned then
    if file.sigValid then (.cleartext file.cleartext file.goodKeys, true)
    else (.errSignatureInvalid, true)
  else (.passthrough file.raw, false)

/-! ## Trusted storage (internal/common storage.go) -/

/-- `FileForTrust` from the source. -/
structure FileForTrust where
  Path : String
  Distribution : String
  Hash : String
  Source : String
  Redirect : String
deriving DecidableEq

/-- `filepath.Join` on the non-empty components (adequate for the
slash-free path segments used throughout). -/
def joinPath (parts : List String) : String :=
  String.intercalate "/" (parts.filter (fun p => p ≠ ""))

/-- Split a character list at every slash (the components of a path). -/
def splitSlash : List Char → List Char → List String
  | [], buf => [String.mk buf.reverse]
  | c :: rest, buf =>
    if c = '/' then String.mk buf.reverse :: splitSlash rest []
    else splitSlash rest (c :: buf)

/-- `filepath.Base` for the well-formed paths handled here. -/
def baseName (p : String) : String :=
  if p = "" then "."
  else
    match ((splitSlash p.toList []).filter (fun s => s ≠ "")).getLast? with
    | some s => s
    | none => "/"

/-- `Storage` from the source: the two scoped directory roots (the
downloader handle and redirect-map mutex are not needed for the modelled
operations). -/
structure Storage where
  downloadDir : String
  trustedDir : String

/-- `Storage.getTrustedPath`. -/
def Storage.getTrustedPath (m : Storage) (parts : List String) : String :=
  joinPath (m.trustedDir :: parts)

/-- `Storage.GetDownloadPath`. -/
def Storage.GetDownloadPath (m : Storage) (parts : List String) : String :=
  joinPath (m.downloadDir :: parts)

/-- The destination path (relative to the trusted root) of one batch entry:
`<distribution>/<source>/<basename>`. -/
def dstRel (file : FileForTrust) : String :=
  joinPath [file.Distribution, file.Source, baseName file.Path]

/-- The loop of `LinkFilesToTrusted`: `seen` is the per-batch dedup map,
`links` the hardlinks performed so far (source path, destination path), and
`redirects` the collected redirect entries.  `ensureTrustedDir` and
`EnsureHardlink` are filesystem effects modelled as succeeding. -/
def linkLoop (m : Storage) : List FileForTrust → List (String × String) →
    List (String × String) → List (String × String) →
    Except String (List (String × String) × List (String × String))
  | [], _, links, redirects => .ok (links, redirects)
  | file :: rest, seen, links, redirects =>
    let relPath := dstRel file
    let dstPath := m.getTrustedPath [relPath]
    match seen.lookup dstPath with
    | some existingHash =>
      if existingHash ≠ file.Hash then
        .error ("conflict: different files want to be placed at " ++ dstPath)
      else linkLoop m rest seen links redirects
    | none =>
      linkLoop m rest (seen ++ [(dstPath, file.Hash)])
        (links ++ [(file.Path, dstPath)]) (redirects ++ [(relPath, file.Redirect)])

/-- `Storage.LinkFilesToTrusted` from the source: returns the hardlinks
performed (in order) and the redirect map entries it would persist. -/
def Storage.LinkFilesToTrusted (m : Storage) (files : List FileForTrust) :
    Except String (List (String × String) × List (String × String)) :=
  linkLoop m files [] [] []

/-- ASCII lower-casing of one character, for `strings.EqualFold` on the
ASCII hex digests compared here. -/
def asciiLower (c : Char) : Char :=
  if 65 ≤ c.toNat ∧ c.toNat ≤ 90 then Char.ofNat (c.toNat + 32) else c

/-- `strings.EqualFold` (case-insensitive equality) on ASCII strings. -/
def eqFold (a b : String) : Bool :=
  a.toList.map asciiLower = b.toList.map asciiLower

/-- `fileExistsWithHash` from the source; the filesystem is abstracted as a
map from path to the SHA-256 of the file found there (`none`: unreadable or
absent). -/
def fileExistsWithHash (fs : String → Option String) (path hashMethod expectedHash : String) :
    Bool :=
  if expectedHash = "" then false
  else if hashMethod ≠ "sha256" then false
  else
    match fs path with
    | none => false
    | some actualHash => eqFold actualHash expectedHash

/-- `Storage.downloadFileExistsWithHash` from the source (logging dropped). -/
def Storage.downloadFileExistsWithHash (m : Storage) (fs : String → Option String)
    (hashMethod expectedHash : String) (pathParts : List String) : Bool :=
  fileExistsWithHash fs (m.GetDownloadPath pathParts) hashMethod expectedHash

/-- `Storage.FileExistsOrDownload` from the source: return the download
path when the file already matches, otherwise delegate to the coordinator
with checksum enforcement (whose successful result's destination is the
same absolute path).  The boolean records whether a download was issued. -/
def Storage.FileExistsOrDownload (m : Storage) (fs : String → Option String)
    (hashMethod expectedHash _downloadURL : String) (pathParts : List String) :
    String × Bool :=
  if m.downloadFileExistsWithHash fs hashMethod expectedHash pathParts then
    (m.GetDownloadPath pathParts, false)
  else
    (m.GetDownloadPath pathParts, true)

/-! ## Release generation and pool paths (debext format.go) -/

/-- `utils.ChecksumInfo` as consumed by `GenerateRelease`. -/
structure ChecksumInfo where
  Size : Int
  MD5 : String
  SHA1 : String
  SHA256 : String
  SHA512 : String
deriving DecidableEq

/-- Go's `fmt.Sprintf "%8d"`: decimal, right-justified with spaces to
width 8. -/
def fmt8d (n : Int) : String :=
  let s := toString n
  if s.length < 8 then String.mk (List.replicate (8 - s.length) ' ') ++ s else s

/-- One line of a Release checksum block:
`" <hash> <width-8 size> <path>\n"`. -/
def checksumLine (hash : String) (size : Int) (path : String) : String :=
  " " ++ hash ++ " " ++ fmt8d size ++ " " ++ path ++ "\n"

/-- `slices.Sorted(maps.Keys(config.Files))`: the declared paths in
lexicographic order. -/
def sortedPaths (files : List (String × ChecksumInfo)) : List String :=
  (files.map Prod.fst).mergeSort (fun a b => decide (a ≤ b))

/-- The line appended for one sorted path: look the path up in the files
map and format its checksum line (the lookup always succeeds; a Go map
read of a missing key would yield the zero value, here the empty line). -/
def lineFor (files : List (String × ChecksumInfo)) (select : ChecksumInfo → String)
    (path : String) : String :=
  match files.lookup path with
  | some info => checksumLine (select info) info.Size path
  | none => ""

/-- The checksum-block accumulation loop of `GenerateRelease` for one hash
selector: iterate the sorted paths and append one line per file. -/
def releaseBlock (files : List (String × ChecksumInfo)) (select : ChecksumInfo → String) :
    String :=
  (sortedPaths files).foldl (fun acc path => acc ++ lineFor files select path) ""

/-- The four checksum blocks `GenerateRelease` stores under `MD5Sum`,
`SHA1`, `SHA256` and `SHA512` (the header fields and the final `WriteTo`
serialisation are outside this model).  `config.Files` is the Go map,
modelled as an association list with distinct keys. -/
def GenerateRelease (files : List (String × ChecksumInfo)) :
    String × String × String × String :=
  (releaseBlock files (fun i => i.MD5), releaseBlock files (fun i => i.SHA1),
    releaseBlock files (fun i => i.SHA256), releaseBlock files (fun i => i.SHA512))

/-- `GetPoolPath` from the source.  `packageName[0]` panics on the empty
string, modelled as `none`; `strings.HasPrefix(packageName, "lib")` is the
first three bytes being `lib`, and `packageName[:4]` is the first four
bytes. -/
def GetPoolPath (component packageName : String) : Option String :=
  match packageName.toList with
  | [] => none
  | c :: _ =>
    let firstLetter :=
      if packageName.toList.take 3 = ['l', 'i', 'b'] ∧ 3 < packageName.length then
        String.mk (packageName.toList.take 4)
      else String.mk [c]
    some (joinPath ["pool", component, firstLetter, packageName])

/-! ## Download deduplication (internal/common downloader.go)

`downloadWithDedup` is concurrent code; it is modelled as a small-step
transition system over two threads issuing one request each to the same
destination.  The atomic steps follow the code: `sync.Map.LoadOrStore`
(register, atomically winning or observing the in-flight waiter), the
download itself together with the result write and `close(done)` (the
waiters observe them only through `done`), the deferred
`inflight.Delete`, and a waiter's receive on `done`. -/

/-- The request fields relevant to deduplication (both requests share one
destination). -/
structure DownloadRequest where
  URL : String
  Checksum : String
deriving DecidableEq

/-- The two conflict errors of `downloadWithDedup`. -/
inductive DlErr where
  | checksumConflict
  | urlConflict
deriving DecidableEq

/-- The collision validation of `downloadWithDedup` (lines 151-157): an
`else if` chain checking the checksum first and then the URL. -/
def validateCollision (req : DownloadRequest) (inflightURL inflightChecksum : String) :
    Option DlErr :=
  if req.Checksum ≠ "" ∧ req.Checksum ≠ inflightChecksum then some .checksumConflict
  else if req.URL ≠ inflightURL then some .urlConflict
  else none

/-- What a caller of `downloadWithDedup` ends up with: a download result
produced by the winning thread, or a conflict error. -/
inductive DlOutcome where
  | success (producedByOne : Bool)
  | failure (e : DlErr)
deriving DecidableEq

/-- A `downloadWaiter`: the registered URL and checksum, the `done` channel
state, and the published result. -/
structure WaiterRec where
  url : String
  checksum : String
  done : Bool
  result : Option DlOutcome
deriving DecidableEq

/-- The control position of one goroutine executing `downloadWithDedup`. -/
inductive ThreadPhase where
  | start
  | downloading (gen : Nat)
  | completedPh (gen : Nat)
  | waitingOn (gen : Nat)
  | finished (o : DlOutcome)
deriving DecidableEq

/-- Global state: the in-flight map entry for the shared destination (by
waiter index), all waiters ever registered, the number of actual downloads
performed, which thread collided (lost `LoadOrStore`), whether a collision
entered the waiting state, and both thread positions. -/
structure DedupState where
  flight : Option Nat
  recs : List WaiterRec
  downloads : Nat
  collided : Option Bool
  waited : Bool
  pc1 : ThreadPhase
  pc2 : ThreadPhase
deriving DecidableEq

/-- Thread `t`'s position (`true` is thread 1). -/
def DedupState.pc (s : DedupState) (t : Bool) : ThreadPhase :=
  if t then s.pc1 else s.pc2

/-- Replace thread `t`'s position. -/
def DedupState.setPc (s : DedupState) (t : Bool) (p : ThreadPhase) : DedupState :=
  if t then { s with pc1 := p } else { s with pc2 := p }

/-- Initial state: empty in-flight map, no downloads, both threads at the
`LoadOrStore` call. -/
def initState : DedupState :=
  ⟨none, [], 0, none, false, .start, .start⟩

/-- Thread `t`'s request. -/
def reqOf (r1 r2 : DownloadRequest) (t : Bool) : DownloadRequest :=
  if t then r1 else r2

/-- One atomic step of the two-thread `downloadWithDedup` system. -/
inductive Step (r1 r2 : DownloadRequest) : DedupState → DedupState → Prop where
  | regWin (s : DedupState) (t : Bool) :
      s.pc t = .start → s.flight = none →
      Step r1 r2 s
        { s.setPc t (.downloading s.recs.length) with
          flight := some s.recs.length,
          recs := s.recs ++ [⟨(reqOf r1 r2 t).URL, (reqOf r1 r2 t).Checksum, false, none⟩] }
  | regLoseWait (s : DedupState) (t : Bool) (g : Nat) (w : WaiterRec) :
      s.pc t = .start → s.flight = some g → s.recs.get? g = some w →
      validateCollision (reqOf r1 r2 t) w.url w.checksum = none →
      Step r1 r2 s
        { s.setPc t (.waitingOn g) with collided := some t, waited := true }
  | regLoseErr (s : DedupState) (t : Bool) (g : Nat) (w : WaiterRec) (e : DlErr) :
      s.pc t = .start → s.flight = some g → s.recs.get? g = some w →
      validateCollision (reqOf r1 r2 t) w.url w.checksum = some e →
      Step r1 r2 s
        { s.setPc t (.finished (.failure e)) with collided := some t }
  | complete (s : DedupState) (t : Bool) (g : Nat) (w : WaiterRec) :
      s.pc t = .downloading g → s.recs.get? g = some w →
      Step r1 r2 s
        { s.setPc t (.completedPh g) with
          recs := s.recs.set g { w with done := true, result := some (.success t) },
          downloads := s.downloads + 1 }
  | del (s : DedupState) (t : Bool) (g : Nat) :
      s.pc t = .completedPh g →
      Step r1 r2 s
        { s.setPc t (.finished (.success t)) with flight := none }
  | await (s : DedupState) (t : Bool) (g : Nat) (w : WaiterRec) :
      s.pc t = .waitingOn g → s.recs.get? g = some w → w.done = true →
      Step r1 r2 s (s.setPc t (.finished (w.result.getD (.success t))))

/-- States reachable from the initial state. -/
def Reachable (r1 r2 : DownloadRequest) (s : DedupState) : Prop :=
  Relation.ReflTransGen (Step r1 r2) initState s

/-- Both threads have returned. -/
def DedupState.terminalState (s : DedupState) : Prop :=
  (∃ o, s.pc1 = .finished o) ∧ (∃ o, s.pc2 = .finished o)

/-- The number of downloads thread `t` has performed, read off its phase: it
has one exactly from the moment its own download completes (its final
outcome then being a success tagged with itself). -/
def dlContrib (p : ThreadPhase) (t : Bool) : Nat :=
  match p with
  | .completedPh _ => 1
  | .finished (.success t2) => if t2 = t then 1 else 0
  | _ => 0

/-- The inductive invariant of the two-thread `downloadWithDedup` system:
download accounting, ownership of the in-flight record, and the
collision bookkeeping needed to characterise the terminal states. -/
structure DedupInv (r1 r2 : DownloadRequest) (s : DedupState) : Prop where
  dl : s.downloads = dlContrib s.pc1 true + dlContrib s.pc2 false
  flightOwner : ∀ g, s.flight = some g →
    ∃ t, s.pc t = .downloading g ∨ s.pc t = .completedPh g
  ownDown : ∀ t g, s.pc t = .downloading g →
    s.flight = some g ∧ ∃ w, s.recs.get? g = some w ∧ w.done = false ∧
      w.url = (reqOf r1 r2 t).URL ∧ w.checksum = (reqOf r1 r2 t).Checksum
  ownComp : ∀ t g, s.pc t = .completedPh g →
    s.flight = some g ∧ ∃ w, s.recs.get? g = some w ∧ w.done = true ∧
      w.result = some (.success t) ∧
      w.url = (reqOf r1 r2 t).URL ∧ w.checksum = (reqOf r1 r2 t).Checksum
  waitInv : ∀ t g, s.pc t = .waitingOn g →
    s.collided = some t ∧ s.waited = true ∧
    validateCollision (reqOf r1 r2 t) (reqOf r1 r2 (!t)).URL
      (reqOf r1 r2 (!t)).Checksum = none ∧
    ∃ w, s.recs.get? g = some w ∧
      (w.done = false → s.pc (!t) = .downloading g) ∧
      (w.done = true → w.result = some (.success (!t)))
  loserFin : ∀ t o, s.collided = some t → s.pc t = .finished o →
    (s.waited = true ∧ o = .success (!t) ∧
      validateCollision (reqOf r1 r2 t) (reqOf r1 r2 (!t)).URL
        (reqOf r1 r2 (!t)).Checksum = none) ∨
    (s.waited = false ∧ ∃ e, o = .failure e ∧
      validateCollision (reqOf r1 r2 t) (reqOf r1 r2 (!t)).URL
        (reqOf r1 r2 (!t)).Checksum = some e)
  winnerSt : ∀ t, s.collided = some t →
    (∃ g, s.pc (!t) = .downloading g) ∨ (∃ g, s.pc (!t) = .completedPh g) ∨
    s.pc (!t) = .finished (.success (!t))
  loserSt : ∀ t, s.collided = some t →
    (∃ g, s.pc t = .waitingOn g) ∨ ∃ o, s.pc t = .finished o
  waitedCol : s.waited = true → ∃ t, s.collided = some t
  uniq : ∀ g g2, (s.pc true = .downloading g ∨ s.pc true = .completedPh g) →
    (s.pc false = .downloading g2 ∨ s.pc false = .completedPh g2) → False

/-! ## Claims -/

unseal List.merge List.mergeSort compareSegments firstDedup in
/-- Claim C1: for the input version list
`[1.34.3-2, 1.34.2-2, 1.33.2-0, 1.32.7-0, 1.31.0-0]` and a single retention
rule with pattern `*.#.*-*` and amount `[3]` under the keep-on-no-match
policy, `RetentionFilter.Filter` returns exactly the items whose versions
are `{1.34.3-2, 1.33.2-0, 1.32.7-0}` (in input order). -/
theorem claim_C1 :
    (do
      let f ← NewRetentionFilter [⟨"*.#.*-*", [3]⟩] (fun s : String => s)
        NoMatchBehavior.keep
      f.Filter ["1.34.3-2", "1.34.2-2", "1.33.2-0", "1.32.7-0", "1.31.0-0"])
      = Except.ok ["1.34.3-2", "1.33.2-0", "1.32.7-0"] := by
  rfl

/-- Claim C10: `GetPoolPath` is total only for non-empty package names — it
indexes `packageName[0]` without a guard, so the empty name panics
(modelled as `none`); every non-empty name maps to
`pool/<component>/<prefix>/<name>` where the prefix is the first four
characters when the name begins with `lib` and is longer than three
characters, and the first letter otherwise; the name `lib` itself uses
`l`. -/
theorem claim_C10 :
    (∀ component : String, GetPoolPath component "" = none) ∧
    (∀ component name : String, name ≠ "" →
      GetPoolPath component name =
        some (joinPath ["pool", component,
          (if name.toList.take 3 = ['l', 'i', 'b'] ∧ 3 < name.length
           then String.mk (name.toList.take 4)
           else String.mk (name.toList.take 1)), name])) ∧
    (∀ component : String, GetPoolPath component "lib" =
      some (joinPath ["pool", component, "l", "lib"])) := by
  have main : ∀ component name : String, name ≠ "" →
      GetPoolPath component name =
        some (joinPath ["pool", component,
          (if name.toList.take 3 = ['l', 'i', 'b'] ∧ 3 < name.length
           then String.mk (name.toList.take 4)
           else String.mk (name.toList.take 1)), name]) := by
    intro component name hne
    cases hn : name.toList with
    | nil =>
      exfalso
      exact hne (String.ext hn)
    | cons c rest =>
      simp only [GetPoolPath, hn]
      simp
  refine ⟨fun component => rfl, main, fun component => ?_⟩
  rw [main component "lib" (by decide), if_neg (by decide)]
  have h1 : String.mk ("lib".toList.take 1) = "l" := by decide
  rw [h1]

/-- Claim C5: `Verifier.VerifyAndClear` fails with the missing-signature
error exactly when the input is not clearsigned and `AcceptUnsigned` is
false; and when the input is clearsigned and `IgnoreSignatures` is true it
returns the extracted cleartext with no key info and performs no signature
verification. -/
theorem claim_C5 :
    ∀ (v : Verifier) (file : SignedInput),
      ((v.VerifyAndClear file).1 = .errMissingSignature ↔
        (file.isClearSigned = false ∧ v.AcceptUnsigned = false)) ∧
      (file.isClearSigned = true → v.IgnoreSignatures = true →
        v.VerifyAndClear file = (.cleartext file.cleartext [], false)) := by
  intro v file
  constructor
  · cases hcs : file.isClearSigned <;> cases hau : v.AcceptUnsigned <;>
      cases hig : v.IgnoreSignatures <;> cases hsv : file.sigValid <;>
      simp [Verifier.VerifyAndClear, hcs, hau, hig, hsv]
  · intro h1 h2
    simp [Verifier.VerifyAndClear, h1, h2]

/-- Witness for claim C5 at a concrete configuration and input. -/
theorem claim_C5_witness :
    ((Verifier.mk false false).VerifyAndClear
        ⟨false, "ct", "raw", true, ["k"]⟩).1 = .errMissingSignature ∧
      (Verifier.mk true true).VerifyAndClear ⟨true, "ct", "raw", false, ["k"]⟩
        = (.cleartext "ct" [], false) := by
  constructor
  · exact ((claim_C5 ⟨false, false⟩ ⟨false, "ct", "raw", true, ["k"]⟩).1).mpr ⟨rfl, rfl⟩
  · exact (claim_C5 ⟨true, true⟩ ⟨true, "ct", "raw", false, ["k"]⟩).2 rfl rfl

/-- Claim C8: when the destination file already exists in the downloads
directory with the expected (non-empty) SHA-256, `FileExistsOrDownload`
returns that path without issuing a download, and any repetition under a
filesystem that agrees at that path returns the identical result. -/
theorem claim_C8 :
    ∀ (m : Storage) (fs : String → Option String) (expectedHash url : String)
      (pathParts : List String) (actual : String),
      expectedHash ≠ "" →
      fs (m.GetDownloadPath pathParts) = some actual →
      eqFold actual expectedHash = true →
      m.FileExistsOrDownload fs "sha256" expectedHash url pathParts
          = (m.GetDownloadPath pathParts, false) ∧
      (∀ fs2 : String → Option String,
        fs2 (m.GetDownloadPath pathParts) = fs (m.GetDownloadPath pathParts) →
        m.FileExistsOrDownload fs2 "sha256" expectedHash url pathParts
          = (m.GetDownloadPath pathParts, false)) := by
  intro m fs expectedHash url pathParts actual hne hfs hfold
  have hex : ∀ fs2 : String → Option String,
      fs2 (m.GetDownloadPath pathParts) = some actual →
      m.downloadFileExistsWithHash fs2 "sha256" expectedHash pathParts = true := by
    intro fs2 h2
    unfold Storage.downloadFileExistsWithHash fileExistsWithHash
    rw [if_neg hne, if_neg (by simp), h2]
    exact hfold
  constructor
  · unfold Storage.FileExistsOrDownload
    rw [if_pos (hex fs hfs)]
  · intro fs2 h2
    unfold Storage.FileExistsOrDownload
    rw [if_pos (hex fs2 (h2.trans hfs))]

/-- Witness for claim C8 at a concrete store and filesystem. -/
theorem claim_C8_witness :
    (Storage.mk "dl" "tr").FileExistsOrDownload
        (fun p => if p = "dl/a/b.deb" then some "ABCD" else none)
        "sha256" "abcd" "http://x" ["a", "b.deb"]
      = ("dl/a/b.deb", false) := by
  have h := claim_C8 (Storage.mk "dl" "tr")
    (fun p => if p = "dl/a/b.deb" then some "ABCD" else none)
    "abcd" "http://x" ["a", "b.deb"] "ABCD" (by decide) (by decide) (by decide)
  exact h.1

/-! Support for claim C9. -/

theorem foldl_append_str {β : Type _} (g : β → String) :
    ∀ (xs : List β) (init : String),
    xs.foldl (fun acc x => acc ++ g x) init = init ++ (xs.map g).foldr (· ++ ·) "" := by
  intro xs
  induction xs with
  | nil =>
    intro init
    simp [String.append_empty]
  | cons x xs ih =>
    intro init
    simp only [List.foldl_cons, List.map_cons, List.foldr_cons]
    rw [ih (init ++ g x), String.append_assoc]

theorem lookup_isSome_of_mem {β : Type _} :
    ∀ (files : List (String × β)) (p : String), p ∈ files.map Prod.fst →
    ∃ i, files.lookup p = some i := by
  intro files
  induction files with
  | nil =>
    intro p h
    simp at h
  | cons f fs ih =>
    intro p h
    obtain ⟨k, v⟩ := f
    by_cases he : p = k
    · exact ⟨v, by simp [List.lookup, he]⟩
    · simp only [List.map_cons, List.mem_cons] at h
      rcases h with h | h
      · exact absurd h he
      · rcases ih p h with ⟨i, hi⟩
        have hbe : (p == k) = false := beq_eq_false_iff_ne.mpr he
        exact ⟨i, by simp [List.lookup, hbe, hi]⟩

theorem mem_of_lookup_eq_some {β : Type _} :
    ∀ (files : List (String × β)) (p : String) (i : β),
    files.lookup p = some i → (p, i) ∈ files := by
  intro files
  induction files with
  | nil =>
    intro p i h
    simp [List.lookup] at h
  | cons f fs ih =>
    intro p i h
    obtain ⟨k, v⟩ := f
    by_cases he : p = k
    · subst he
      simp [List.lookup] at h
      simp [h]
    · have hbe : (p == k) = false := beq_eq_false_iff_ne.mpr he
      simp [List.lookup, hbe] at h
      exact List.mem_cons_of_mem _ (ih p i h)

/-- Two association lists with permuted, duplicate-free keys and pointwise
membership are permutations of each other. -/
theorem perm_of_keys_perm {β : Type _} [DecidableEq β] :
    ∀ (l files : List (String × β)),
    (l.map Prod.fst).Nodup → (l.map Prod.fst).Perm (files.map Prod.fst) →
    (∀ q ∈ l, q ∈ files) → l.Perm files := by
  intro l
  induction l with
  | nil =>
    intro files _ hperm _
    have h2 : files.map Prod.fst = [] := hperm.symm.eq_nil
    have h3 : files = [] := List.map_eq_nil_iff.mp h2
    rw [h3]
  | cons q l ih =>
    intro files hnodup hperm hsub
    have hqf : q ∈ files := hsub q (List.mem_cons_self q l)
    obtain ⟨rest, hfp⟩ : ∃ rest, files.Perm (q :: rest) := ⟨_, List.perm_cons_erase hqf⟩
    have hnodup2 : (q.1 :: l.map Prod.fst).Nodup := by
      rw [List.map_cons] at hnodup
      exact hnodup
    have hnd := List.nodup_cons.mp hnodup2
    refine (List.Perm.cons q ?_).trans hfp.symm
    apply ih
    · exact hnd.2
    · have h1 : (q.1 :: l.map Prod.fst).Perm (files.map Prod.fst) := by simpa using hperm
      have h2 : (files.map Prod.fst).Perm (q.1 :: rest.map Prod.fst) := by
        have h3 := hfp.map Prod.fst
        simpa using h3
      exact (h1.trans h2).cons_inv
    · intro r hr
      have hrf : r ∈ files := hsub r (List.mem_cons_of_mem q hr)
      have hmem : r ∈ q :: rest := hfp.mem_iff.mp hrf
      rcases List.mem_cons.mp hmem with he | he
      · exfalso
        subst he
        exact hnd.1 (List.mem_map_of_mem Prod.fst hr)
      · exact he

theorem sortedPaths_perm (files : List (String × ChecksumInfo)) :
    (sortedPaths files).Perm (files.map Prod.fst) :=
  List.mergeSort_perm (files.map Prod.fst) _

theorem sortedPaths_sorted (files : List (String × ChecksumInfo)) :
    (sortedPaths files).Sorted (· ≤ ·) := by
  have h := @List.sorted_mergeSort String
    (fun a b : String => decide (a ≤ b))
    (fun a b c h1 h2 => decide_eq_true (le_trans (of_decide_eq_true h1) (of_decide_eq_true h2)))
    (fun a b => by
      rcases le_total a b with h | h
      · simp only [decide_eq_true h, Bool.true_or]
      · simp only [decide_eq_true h, Bool.or_true])
    (files.map Prod.fst)
  exact List.Pairwise.imp (fun hab => of_decide_eq_true hab) h

theorem filterMap_lookup_fst {β : Type _} (files : List (String × β)) :
    ∀ sp : List String, (∀ p ∈ sp, ∃ i, files.lookup p = some i) →
    (sp.filterMap (fun p => (files.lookup p).map (fun i => (p, i)))).map Prod.fst = sp := by
  intro sp
  induction sp with
  | nil =>
    intro _
    rfl
  | cons p sp ih =>
    intro h
    obtain ⟨i, hi⟩ := h p (List.mem_cons_self p sp)
    simp only [List.filterMap_cons, hi, Option.map_some', List.map_cons]
    rw [ih (fun q hq => h q (List.mem_cons_of_mem p hq))]

theorem sp_map_line (files : List (String × ChecksumInfo)) (sel : ChecksumInfo → String) :
    ∀ sp : List String, (∀ p ∈ sp, ∃ i, files.lookup p = some i) →
    sp.map (lineFor files sel) =
    (sp.filterMap (fun p => (files.lookup p).map (fun i => (p, i)))).map
      (fun pi => checksumLine (sel pi.2) pi.2.Size pi.1) := by
  intro sp
  induction sp with
  | nil =>
    intro _
    rfl
  | cons p sp ih =>
    intro h
    obtain ⟨i, hi⟩ := h p (List.mem_cons_self p sp)
    simp only [List.map_cons, List.filterMap_cons, hi, Option.map_some', lineFor]
    rw [ih (fun q hq => h q (List.mem_cons_of_mem p hq))]

/-- Claim C9: `GenerateRelease` emits the `MD5Sum`, `SHA1`, `SHA256` and
`SHA512` blocks as newline-delimited lists of lines
`" <hash> <size space-padded to width 8> <path>\n"` (see `checksumLine` and
`fmt8d`), with one entry per declared file and the entries sorted
lexicographically by path. -/
theorem claim_C9 :
    ∀ files : List (String × ChecksumInfo), (files.map Prod.fst).Nodup →
      ∃ l : List (String × ChecksumInfo),
        l.Perm files ∧
        (l.map Prod.fst).Sorted (· ≤ ·) ∧
        GenerateRelease files =
          ((l.map (fun pi => checksumLine pi.2.MD5 pi.2.Size pi.1)).foldr (· ++ ·) "",
           (l.map (fun pi => checksumLine pi.2.SHA1 pi.2.Size pi.1)).foldr (· ++ ·) "",
           (l.map (fun pi => checksumLine pi.2.SHA256 pi.2.Size pi.1)).foldr (· ++ ·) "",
           (l.map (fun pi => checksumLine pi.2.SHA512 pi.2.Size pi.1)).foldr (· ++ ·) "") := by
  intro files hnodup
  have hsome : ∀ p ∈ sortedPaths files, ∃ i, files.lookup p = some i := by
    intro p hp
    exact lookup_isSome_of_mem files p ((sortedPaths_perm files).mem_iff.mp hp)
  have hfst := filterMap_lookup_fst files (sortedPaths files) hsome
  refine ⟨(sortedPaths files).filterMap
    (fun p => (files.lookup p).map (fun i => (p, i))), ?_, ?_, ?_⟩
  · apply perm_of_keys_perm
    · rw [hfst]
      exact (sortedPaths_perm files).nodup_iff.mpr hnodup
    · rw [hfst]
      exact sortedPaths_perm files
    · intro q hq
      rcases List.mem_filterMap.mp hq with ⟨p, _, hpq⟩
      rcases Option.map_eq_some'.mp hpq with ⟨i, hi, hqi⟩
      subst hqi
      exact mem_of_lookup_eq_some files p i hi
  · rw [hfst]
    exact sortedPaths_sorted files
  · have hblock : ∀ sel : ChecksumInfo → String,
        releaseBlock files sel =
          (((sortedPaths files).filterMap
              (fun p => (files.lookup p).map (fun i => (p, i)))).map
            (fun pi => checksumLine (sel pi.2) pi.2.Size pi.1)).foldr (· ++ ·) "" := by
      intro sel
      unfold releaseBlock
      rw [foldl_append_str (lineFor files sel) (sortedPaths files) ""]
      have hempty : ∀ x : String, "" ++ x = x := fun x => rfl
      rw [hempty]
      rw [sp_map_line files sel (sortedPaths files) hsome]
    unfold GenerateRelease
    rw [hblock (fun i => i.MD5), hblock (fun i => i.SHA1), hblock (fun i => i.SHA256),
      hblock (fun i => i.SHA512)]

/-- Witness for claim C9 at a concrete two-file configuration. -/
theorem claim_C9_witness :
    ∃ l : List (String × ChecksumInfo),
      l.Perm [("b/Packages", ⟨12, "m", "s1", "s2", "s5"⟩),
              ("a/Packages", ⟨7, "n", "t1", "t2", "t5"⟩)] ∧
      (l.map Prod.fst).Sorted (· ≤ ·) ∧
      GenerateRelease [("b/Packages", ⟨12, "m", "s1", "s2", "s5"⟩),
              ("a/Packages", ⟨7, "n", "t1", "t2", "t5"⟩)] =
        ((l.map (fun pi => checksumLine pi.2.MD5 pi.2.Size pi.1)).foldr (· ++ ·) "",
         (l.map (fun pi => checksumLine pi.2.SHA1 pi.2.Size pi.1)).foldr (· ++ ·) "",
         (l.map (fun pi => checksumLine pi.2.SHA256 pi.2.Size pi.1)).foldr (· ++ ·) "",
         (l.map (fun pi => checksumLine pi.2.SHA512 pi.2.Size pi.1)).foldr (· ++ ·) "") :=
  claim_C9 [("b/Packages", ⟨12, "m", "s1", "s2", "s5"⟩),
    ("a/Packages", ⟨7, "n", "t1", "t2", "t5"⟩)] (by decide)

/-! Support for claim C7. -/

theorem lookup_append_left {β : Type _} :
    ∀ (l1 : List (String × β)) (l2 : List (String × β)) (d : String) (v : β),
    l1.lookup d = some v → (l1 ++ l2).lookup d = some v := by
  intro l1
  induction l1 with
  | nil =>
    intro l2 d v h
    simp [List.lookup_nil] at h
  | cons f fs ih =>
    intro l2 d v h
    obtain ⟨k, w⟩ := f
    rw [List.lookup_cons] at h
    rw [List.cons_append, List.lookup_cons]
    cases hbe : d == k with
    | true =>
      rw [hbe] at h
      exact h
    | false =>
      rw [hbe] at h
      exact ih l2 d v h

theorem lookup_append_right_none {β : Type _} :
    ∀ (l1 : List (String × β)) (l2 : List (String × β)) (d : String),
    l1.lookup d = none → (l1 ++ l2).lookup d = l2.lookup d := by
  intro l1
  induction l1 with
  | nil =>
    intro l2 d _
    rfl
  | cons f fs ih =>
    intro l2 d h
    obtain ⟨k, w⟩ := f
    rw [List.lookup_cons] at h
    rw [List.cons_append, List.lookup_cons]
    cases hbe : d == k with
    | true =>
      rw [hbe] at h
      exact Option.noConfusion h
    | false =>
      rw [hbe] at h
      exact ih l2 d h

theorem lookup_snoc_self {β : Type _} (l : List (String × β)) (d : String) (v : β)
    (h : l.lookup d = none) : (l ++ [(d, v)]).lookup d = some v := by
  rw [lookup_append_right_none l [(d, v)] d h, List.lookup_cons]
  simp

theorem lookup_snoc_other {β : Type _} (l : List (String × β)) (d e : String) (v : β)
    (h : l.lookup d = none) (hne : d ≠ e) : (l ++ [(e, v)]).lookup d = none := by
  rw [lookup_append_right_none l [(e, v)] d h, List.lookup_cons]
  rw [beq_eq_false_iff_ne.mpr hne]
  rfl

theorem linkLoop_cons_some (m : Storage) (f : FileForTrust)
    (rest : List FileForTrust) (seen links reds : List (String × String))
    (h : String) (hlk : seen.lookup (m.getTrustedPath [dstRel f]) = some h) :
    linkLoop m (f :: rest) seen links reds =
      if h ≠ f.Hash then
        .error ("conflict: different files want to be placed at "
          ++ m.getTrustedPath [dstRel f])
      else linkLoop m rest seen links reds := by
  simp only [linkLoop]
  rw [hlk]

theorem linkLoop_cons_none (m : Storage) (f : FileForTrust)
    (rest : List FileForTrust) (seen links reds : List (String × String))
    (hlk : seen.lookup (m.getTrustedPath [dstRel f]) = none) :
    linkLoop m (f :: rest) seen links reds =
      linkLoop m rest (seen ++ [(m.getTrustedPath [dstRel f], f.Hash)])
        (links ++ [(f.Path, m.getTrustedPath [dstRel f])])
        (reds ++ [(dstRel f, f.Redirect)]) := by
  simp only [linkLoop]
  rw [hlk]

/-- Any batch containing a same-destination different-hash pair (or an entry
clashing with the seen map) makes `linkLoop` fail with the conflict error. -/
theorem linkLoop_conflict (m : Storage) :
    ∀ (files : List FileForTrust) (seen links reds : List (String × String)),
    ((∃ f ∈ files, ∃ h, seen.lookup (m.getTrustedPath [dstRel f]) = some h ∧ h ≠ f.Hash) ∨
     (∃ fi ∈ files, ∃ fj ∈ files,
        m.getTrustedPath [dstRel fi] = m.getTrustedPath [dstRel fj] ∧ fi.Hash ≠ fj.Hash)) →
    ∃ dst, linkLoop m files seen links reds
      = .error ("conflict: different files want to be placed at " ++ dst) := by
  intro files
  induction files with
  | nil =>
    intro seen links reds hc
    rcases hc with ⟨f, hf, _⟩ | ⟨f, hf, _⟩ <;> simp at hf
  | cons f rest ih =>
    intro seen links reds hc
    cases hlk : seen.lookup (m.getTrustedPath [dstRel f]) with
    | some h =>
      by_cases hh : h = f.Hash
      · rw [linkLoop_cons_some m f rest seen links reds h hlk, if_neg (by simp [hh])]
        apply ih
        rcases hc with ⟨g, hg, h2, hl2, hne2⟩ | ⟨fi, hfi, fj, hfj, hdd, hhne⟩
        · rcases List.mem_cons.mp hg with hg1 | hg2
          · rw [hg1] at hl2
            rw [hlk] at hl2
            injection hl2 with hxy
            rw [hg1] at hne2
            rw [hh] at hxy
            exact (hne2 hxy.symm).elim
          · exact Or.inl ⟨g, hg2, h2, hl2, hne2⟩
        · rcases List.mem_cons.mp hfi with hfi1 | hfi2 <;>
            rcases List.mem_cons.mp hfj with hfj1 | hfj2
          · rw [hfi1, hfj1] at hhne
            exact (hhne rfl).elim
          · refine Or.inl ⟨fj, hfj2, h, ?_, ?_⟩
            · rw [hfi1] at hdd
              rw [← hdd]
              exact hlk
            · rw [hh]
              rw [hfi1] at hhne
              exact hhne
          · refine Or.inl ⟨fi, hfi2, h, ?_, ?_⟩
            · rw [hfj1] at hdd
              rw [hdd]
              exact hlk
            · rw [hh]
              rw [hfj1] at hhne
              exact fun hc2 => hhne hc2.symm
          · exact Or.inr ⟨fi, hfi2, fj, hfj2, hdd, hhne⟩
      · rw [linkLoop_cons_some m f rest seen links reds h hlk, if_pos hh]
        exact ⟨m.getTrustedPath [dstRel f], rfl⟩
    | none =>
      rw [linkLoop_cons_none m f rest seen links reds hlk]
      apply ih
      rcases hc with ⟨g, hg, h2, hl2, hne2⟩ | ⟨fi, hfi, fj, hfj, hdd, hhne⟩
      · rcases List.mem_cons.mp hg with hg1 | hg2
        · rw [hg1, hlk] at hl2
          exact Option.noConfusion hl2
        · exact Or.inl ⟨g, hg2, h2,
            lookup_append_left seen _ _ _ hl2, hne2⟩
      · rcases List.mem_cons.mp hfi with hfi1 | hfi2 <;>
          rcases List.mem_cons.mp hfj with hfj1 | hfj2
        · rw [hfi1, hfj1] at hhne
          exact (hhne rfl).elim
        · refine Or.inl ⟨fj, hfj2, f.Hash, ?_, ?_⟩
          · rw [hfi1] at hdd
            rw [← hdd]
            exact lookup_snoc_self seen _ _ hlk
          · rw [hfi1] at hhne
            exact hhne
        · refine Or.inl ⟨fi, hfi2, f.Hash, ?_, ?_⟩
          · rw [hfj1] at hdd
            rw [hdd]
            exact lookup_snoc_self seen _ _ hlk
          · rw [hfj1] at hhne
            exact fun hc2 => hhne hc2.symm
        · exact Or.inr ⟨fi, hfi2, fj, hfj2, hdd, hhne⟩

/-- A conflict-free batch links each new destination exactly once. -/
theorem linkLoop_ok (m : Storage) :
    ∀ (files : List FileForTrust) (seen links reds : List (String × String)),
    (∀ f ∈ files, ∀ h, seen.lookup (m.getTrustedPath [dstRel f]) = some h → h = f.Hash) →
    (∀ fi ∈ files, ∀ fj ∈ files,
      m.getTrustedPath [dstRel fi] = m.getTrustedPath [dstRel fj] → fi.Hash = fj.Hash) →
    ∃ newlinks reds2, linkLoop m files seen links reds = .ok (links ++ newlinks, reds2) ∧
      (newlinks.map Prod.snd).Nodup ∧
      (∀ d ∈ newlinks.map Prod.snd, seen.lookup d = none ∧
        ∃ f ∈ files, m.getTrustedPath [dstRel f] = d) ∧
      (∀ f ∈ files, seen.lookup (m.getTrustedPath [dstRel f]) = none →
        m.getTrustedPath [dstRel f] ∈ newlinks.map Prod.snd) := by
  intro files
  induction files with
  | nil =>
    intro seen links reds _ _
    refine ⟨[], reds, ?_, ?_, ?_, ?_⟩ <;> simp [linkLoop]
  | cons f rest ih =>
    intro seen links reds hseen hpair
    cases hlk : seen.lookup (m.getTrustedPath [dstRel f]) with
    | some h =>
      have hh : h = f.Hash := hseen f (List.mem_cons_self f rest) h hlk
      rw [linkLoop_cons_some m f rest seen links reds h hlk, if_neg (by simp [hh])]
      rcases ih seen links reds
        (fun g hg => hseen g (List.mem_cons_of_mem f hg))
        (fun fi hfi fj hfj => hpair fi (List.mem_cons_of_mem f hfi) fj
          (List.mem_cons_of_mem f hfj)) with
        ⟨newlinks, reds2, heq, hnd, hmem, hcov⟩
      refine ⟨newlinks, reds2, heq, hnd, ?_, ?_⟩
      · intro d hd
        rcases hmem d hd with ⟨hnone, g, hg, hgd⟩
        exact ⟨hnone, g, List.mem_cons_of_mem f hg, hgd⟩
      · intro g hg hnone
        rcases List.mem_cons.mp hg with hg1 | hg2
        · rw [hg1, hlk] at hnone
          exact Option.noConfusion hnone
        · exact hcov g hg2 hnone
    | none =>
      have hseen2 : ∀ g ∈ rest, ∀ h2,
          (seen ++ [(m.getTrustedPath [dstRel f], f.Hash)]).lookup
            (m.getTrustedPath [dstRel g]) = some h2 → h2 = g.Hash := by
        intro g hg h2 hl2
        cases hlg : seen.lookup (m.getTrustedPath [dstRel g]) with
        | some h3 =>
          rw [lookup_append_left seen _ _ h3 hlg] at hl2
          injection hl2 with hx
          rw [← hx]
          exact hseen g (List.mem_cons_of_mem f hg) h3 hlg
        | none =>
          rw [lookup_append_right_none seen _ _ hlg, List.lookup_cons] at hl2
          by_cases hd : m.getTrustedPath [dstRel g] = m.getTrustedPath [dstRel f]
          · rw [hd, beq_self_eq_true] at hl2
            injection hl2 with hx
            rw [← hx]
            exact hpair f (List.mem_cons_self f rest) g
              (List.mem_cons_of_mem f hg) hd.symm
          · rw [beq_eq_false_iff_ne.mpr hd] at hl2
            exact Option.noConfusion hl2
      rcases ih (seen ++ [(m.getTrustedPath [dstRel f], f.Hash)])
        (links ++ [(f.Path, m.getTrustedPath [dstRel f])])
        (reds ++ [(dstRel f, f.Redirect)]) hseen2
        (fun fi hfi fj hfj => hpair fi (List.mem_cons_of_mem f hfi) fj
          (List.mem_cons_of_mem f hfj)) with
        ⟨newlinks, reds2, heq, hnd, hmem, hcov⟩
      rw [linkLoop_cons_none m f rest seen links reds hlk]
      refine ⟨(f.Path, m.getTrustedPath [dstRel f]) :: newlinks, reds2, ?_, ?_, ?_, ?_⟩
      · rw [heq]
        simp
      · simp only [List.map_cons, List.nodup_cons]
        refine ⟨?_, hnd⟩
        intro hin
        have hnone2 := (hmem _ hin).1
        rw [lookup_snoc_self seen _ _ hlk] at hnone2
        exact Option.noConfusion hnone2
      · intro d hd
        rw [List.map_cons] at hd
        rcases List.mem_cons.mp hd with hd1 | hd2
        · refine ⟨?_, f, List.mem_cons_self f rest, ?_⟩
          · rw [hd1]
            exact hlk
          · rw [hd1]
        · rcases hmem d hd2 with ⟨hnone, g, hg, hgd⟩
          refine ⟨?_, g, List.mem_cons_of_mem f hg, hgd⟩
          cases hlg : seen.lookup d with
          | some h3 =>
            rw [lookup_append_left seen _ _ h3 hlg] at hnone
            exact Option.noConfusion hnone
          | none => rfl
      · intro g hg hg0
        rcases List.mem_cons.mp hg with hg1 | hg2
        · rw [hg1]
          simp
        · by_cases hd : m.getTrustedPath [dstRel g] = m.getTrustedPath [dstRel f]
          · rw [hd]
            simp
          · have hnone2 : (seen ++ [(m.getTrustedPath [dstRel f], f.Hash)]).lookup
                (m.getTrustedPath [dstRel g]) = none :=
              lookup_snoc_other seen _ _ _ hg0 hd
            have hmem2 := hcov g hg2 hnone2
            simp only [List.map_cons]
            exact List.mem_cons_of_mem _ hmem2

/-- Claim C7: within one `LinkFilesToTrusted` batch, two entries that map to
the same trusted destination path but carry different hashes make the call
fail with the conflict error; and when all entries sharing a destination path
agree on the hash, the call succeeds with each destination linked exactly once
(duplicates are skipped), the links covering precisely the destinations of
the batch. -/
theorem claim_C7 (m : Storage) (files : List FileForTrust) :
    ((∃ fi ∈ files, ∃ fj ∈ files,
        m.getTrustedPath [dstRel fi] = m.getTrustedPath [dstRel fj] ∧ fi.Hash ≠ fj.Hash) →
      ∃ dst, m.LinkFilesToTrusted files
        = .error ("conflict: different files want to be placed at " ++ dst)) ∧
    ((∀ fi ∈ files, ∀ fj ∈ files,
        m.getTrustedPath [dstRel fi] = m.getTrustedPath [dstRel fj] → fi.Hash = fj.Hash) →
      ∃ links redirects, m.LinkFilesToTrusted files = .ok (links, redirects) ∧
        (links.map Prod.snd).Nodup ∧
        (∀ f ∈ files, m.getTrustedPath [dstRel f] ∈ links.map Prod.snd) ∧
        (∀ d ∈ links.map Prod.snd, ∃ f ∈ files, m.getTrustedPath [dstRel f] = d)) := by
  constructor
  · intro hc
    exact linkLoop_conflict m files [] [] [] (Or.inr hc)
  · intro hp
    rcases linkLoop_ok m files [] [] []
      (fun g hg h hl => Option.noConfusion hl) hp with
      ⟨newlinks, reds2, heq, hnd, hmem, hcov⟩
    refine ⟨newlinks, reds2, ?_, hnd, ?_, ?_⟩
    · rw [Storage.LinkFilesToTrusted, heq, List.nil_append]
    · intro g hg
      exact hcov g hg rfl
    · intro d hd
      exact (hmem d hd).2

/-- Concrete instantiation of claim C7: a batch with two files that land on
the same trusted destination with different hashes errors out, and a batch
where they agree on the hash succeeds. -/
theorem claim_C7_witness :
    (∃ dst, Storage.LinkFilesToTrusted ⟨"dl", "tr"⟩
        [⟨"x/a.deb", "d", "h1", "s", "r"⟩, ⟨"y/a.deb", "d", "h2", "s", "r"⟩]
      = .error ("conflict: different files want to be placed at " ++ dst)) ∧
    (∃ links redirects, Storage.LinkFilesToTrusted ⟨"dl", "tr"⟩
        [⟨"x/a.deb", "d", "h1", "s", "r"⟩, ⟨"y/a.deb", "d", "h1", "s", "r"⟩]
      = .ok (links, redirects) ∧ (links.map Prod.snd).Nodup) := by
  constructor
  · exact (claim_C7 ⟨"dl", "tr"⟩
      [⟨"x/a.deb", "d", "h1", "s", "r"⟩, ⟨"y/a.deb", "d", "h2", "s", "r"⟩]).1
      ⟨⟨"x/a.deb", "d", "h1", "s", "r"⟩, by decide,
       ⟨"y/a.deb", "d", "h2", "s", "r"⟩, by decide, by decide, by decide⟩
  · rcases (claim_C7 ⟨"dl", "tr"⟩
      [⟨"x/a.deb", "d", "h1", "s", "r"⟩, ⟨"y/a.deb", "d", "h1", "s", "r"⟩]).2
      (by decide) with ⟨links, redirects, hok, hnd, _, _⟩
    exact ⟨links, redirects, hok, hnd⟩

/-- Concrete instantiation of claim C10: the non-empty name `libfoo` in
component `main` maps to `pool/main/libf/libfoo`. -/
theorem claim_C10_witness :
    "libfoo" ≠ "" ∧ GetPoolPath "main" "libfoo" = some "pool/main/libf/libfoo" := by
  refine ⟨by decide, ?_⟩
  rw [claim_C10.2.1 "main" "libfoo" (by decide)]
  decide

unseal compareSegments in
/-- Claim C3 (corrected): `compareSegments` equals the padded lexicographic
comparison of the alternating (non-digit run, digit run) decompositions of
the two strings; when the non-digit runs tie, a pair compares by the
`parseInt` values of the digit runs — and `parseInt` is the numeric value
clamped at `MaxInt64 = 2^63 - 1` (the discarded `strconv.Atoi` range error
leaves the clamped value), so digit runs compare numerically only below
2^63, with the empty digit run parsing to zero; the non-digit runs compare
by `debianLexicalCompare`, under which tilde sorts before the end of string,
the end of string sorts before any non-tilde character, and letters sort
before non-letters; in particular `1.0~rc1 < 1.0`, `1.0 < 1.0-1` and
`10 > 2`. -/
theorem claim_C3 :
    (∀ a b : List Char,
      compareSegments a b = paddedLex pairCmp ([], []) (runPairs a) (runPairs b)) ∧
    (∀ x y : List Char × List Char, debianLexicalCompare x.1 y.1 = 0 →
      pairCmp x y = intCmpI (parseInt x.2) (parseInt y.2)) ∧
    (∀ s : List Char, parseInt s =
      min ((s.foldl (fun a c => 10 * a + (c.toNat - 48)) 0 : Nat) : Int) (2 ^ 63 - 1)) ∧
    parseInt [] = 0 ∧
    (∀ s : List Char, debianLexicalCompare ('~' :: s) [] = -1) ∧
    (∀ c : Char, ∀ s : List Char, c ≠ '~' → debianLexicalCompare [] (c :: s) = -1) ∧
    (∀ a b : Char, ∀ as bs : List Char, a ≠ '~' → b ≠ '~' →
      isLetterChar a = true → isLetterChar b = false →
      debianLexicalCompare (a :: as) (b :: bs) = -1) ∧
    compareSegStr "1.0~rc1" "1.0" = -1 ∧
    compareSegStr "1.0" "1.0-1" = -1 ∧
    compareSegStr "10" "2" = 1 := by
  refine ⟨compareSegments_eq_paddedLex, ?_, ?_, by decide, ?_, ?_, ?_,
    by decide, by decide, by decide⟩
  · intro x y h
    simp only [pairCmp, h, intCmpI]
    simp
  · intro s
    simp only [parseInt]
    split_ifs with h
    · omega
    · omega
  · intro s
    simp [debianLexicalCompare]
  · intro c s h
    simp [debianLexicalCompare, h]
  · intro a b as bs ha hb hla hlb
    simp [debianLexicalCompare, ha, hb, hla, hlb]

/-- Concrete instantiation of claim C3: a digit-run pair with tied non-digit
runs compares by `parseInt`, a small digit run parses to its clamped (here
exact) numeric value, the end of string sorts before a letter, and a letter
sorts before a plus sign. -/
theorem claim_C3_witness :
    pairCmp (['.'], ['4']) (['.'], ['1', '0']) = intCmpI (parseInt ['4']) (parseInt ['1', '0']) ∧
    parseInt ['9', '9'] =
      min (((['9', '9'].foldl (fun a c => 10 * a + (c.toNat - 48)) 0 : Nat)) : Int) (2 ^ 63 - 1) ∧
    debianLexicalCompare [] ['a'] = -1 ∧
    debianLexicalCompare ['a'] ['+'] = -1 :=
  ⟨claim_C3.2.1 (['.'], ['4']) (['.'], ['1', '0']) (by decide),
   claim_C3.2.2.1 ['9', '9'],
   claim_C3.2.2.2.2.2.1 'a' [] (by decide),
   claim_C3.2.2.2.2.2.2.1 'a' '+' [] [] (by decide) (by decide) (by decide) (by decide)⟩

unseal compareSegments in
/-- Claim C3 counterexample: the all-digit segments `9223372036854775808`
and `9223372036854775807` have different numeric values, yet
`compareSegments` returns 0 — the discarded `strconv.Atoi` range error
clamps both to `MaxInt64`, so digit runs do not universally compare
numerically. -/
theorem claim_C3_counterexample :
    ("9223372036854775808".toList.foldl (fun a c => 10 * a + (c.toNat - 48)) (0 : Nat))
      ≠ "9223372036854775807".toList.foldl (fun a c => 10 * a + (c.toNat - 48)) (0 : Nat) ∧
    parseInt "9223372036854775808".toList = parseInt "9223372036854775807".toList ∧
    compareSegStr "9223372036854775808" "9223372036854775807" = 0 := by
  exact ⟨by decide, by decide, by decide⟩

/-! Support for claim C2. -/

theorem buildPatterns_length :
    ∀ (rules : List RetentionRule) (ps : List pattern),
    buildPatterns rules = .ok ps → ps.length = rules.length := by
  intro rules
  induction rules with
  | nil =>
    intro ps h
    simp only [buildPatterns] at h
    cases h
    rfl
  | cons rule rest ih =>
    intro ps h
    cases hp : parsePattern rule.Pattern with
    | error e =>
      simp only [buildPatterns, hp] at h
      exact Except.noConfusion h
    | ok p =>
      simp only [buildPatterns, hp] at h
      by_cases hl : rule.Amount.length ≠ p.trackedIndices.length
      · rw [if_pos hl] at h
        exact Except.noConfusion h
      · rw [if_neg hl] at h
        cases hb : buildPatterns rest with
        | error e =>
          rw [hb] at h
          exact Except.noConfusion h
        | ok ps2 =>
          rw [hb] at h
          injection h with h2
          rw [← h2]
          simp [ih ps2 hb]

theorem parseVersion_raw (s : String) (p : pattern) (w : version)
    (h : parseVersion s p = .ok w) : w.raw = s := by
  simp only [parseVersion] at h
  split_ifs at h
  cases h
  rfl

theorem mem_firstDedup_aux {α : Type _} [DecidableEq α] :
    ∀ (n : Nat) (l : List α), l.length ≤ n → ∀ a ∈ l, a ∈ firstDedup l := by
  intro n
  induction n with
  | zero =>
    intro l hl a ha
    rw [List.length_eq_zero.mp (Nat.le_zero.mp hl)] at ha
    cases ha
  | succ n ih =>
    intro l hl a ha
    cases l with
    | nil => cases ha
    | cons b bs =>
      rw [firstDedup]
      rcases List.mem_cons.mp ha with ha1 | ha2
      · rw [ha1]
        exact List.mem_cons_self b _
      · by_cases hab : a = b
        · rw [hab]
          exact List.mem_cons_self b _
        · refine List.mem_cons_of_mem b (ih _ ?_ a ?_)
          · have := List.length_filter_le (fun x => x ≠ b) bs
            simp only [List.length_cons] at hl
            omega
          · exact List.mem_filter.mpr ⟨ha2, by simp [hab]⟩

theorem mem_firstDedup {α : Type _} [DecidableEq α] (l : List α) (a : α)
    (ha : a ∈ l) : a ∈ firstDedup l :=
  mem_firstDedup_aux l.length l le_rfl a ha

theorem foldl_best_mem :
    ∀ (vs : List version) (v0 : version),
    (vs.foldl (fun best w => if compareVersions w best > 0 then w else best) v0) ∈ v0 :: vs := by
  intro vs
  induction vs with
  | nil =>
    intro v0
    simp
  | cons w ws ih =>
    intro v0
    rw [List.foldl_cons]
    rcases List.mem_cons.mp (ih (if compareVersions w v0 > 0 then w else v0)) with h1 | h2
    · rw [h1]
      by_cases hc : compareVersions w v0 > 0
      · rw [if_pos hc]
        exact List.mem_cons_of_mem _ (List.mem_cons_self w ws)
      · rw [if_neg hc]
        exact List.mem_cons_self v0 _
    · exact List.mem_cons_of_mem _ (List.mem_cons_of_mem w h2)

theorem groupPairs_mem_self {α : Type _} (key : α → String) (vs : List α) (v : α)
    (hv : v ∈ vs) :
    (key v, vs.filter (fun w => key w = key v)) ∈ groupPairs key vs ∧
    v ∈ vs.filter (fun w => key w = key v) := by
  constructor
  · exact List.mem_map_of_mem _ (mem_firstDedup _ _ (List.mem_map_of_mem key hv))
  · exact List.mem_filter.mpr ⟨hv, by simp⟩

theorem findLoop_sound (v : String) (P : Nat → Prop) :
    ∀ (ps : List (Nat × pattern)) (maxC : Nat) (acc : List Nat),
    (∀ j ∈ acc, P j) →
    (∀ pr ∈ ps, (∃ w, parseVersion v pr.2 = .ok w) → P pr.1) →
    ∀ j ∈ findLoop v ps maxC acc, P j := by
  intro ps
  induction ps with
  | nil =>
    intro maxC acc hacc _ j hj
    rw [findLoop] at hj
    exact hacc j hj
  | cons pr rest ih =>
    intro maxC acc hacc hps j hj
    obtain ⟨i, p⟩ := pr
    rw [findLoop] at hj
    cases hpv : parseVersion v p with
    | error e =>
      rw [hpv] at hj
      exact ih maxC acc hacc
        (fun q hq => hps q (List.mem_cons_of_mem _ hq)) j hj
    | ok w =>
      rw [hpv] at hj
      have hPi : P i := hps (i, p) (List.mem_cons_self _ _) ⟨w, hpv⟩
      by_cases h1 : maxC < p.segmentCount
      · rw [if_pos h1] at hj
        refine ih p.segmentCount [i] ?_
          (fun q hq => hps q (List.mem_cons_of_mem _ hq)) j hj
        intro q hq
        rw [List.mem_singleton.mp hq]
        exact hPi
      · rw [if_neg h1] at hj
        by_cases h2 : p.segmentCount = maxC
        · rw [if_pos h2] at hj
          refine ih maxC (acc ++ [i]) ?_
            (fun q hq => hps q (List.mem_cons_of_mem _ hq)) j hj
          intro q hq
          rcases List.mem_append.mp hq with hq1 | hq2
          · exact hacc q hq1
          · rw [List.mem_singleton.mp hq2]
            exact hPi
        · rw [if_neg h2] at hj
          exact ih maxC acc hacc
            (fun q hq => hps q (List.mem_cons_of_mem _ hq)) j hj

theorem retain_keeps_cons_inner (idx : Nat) (amount : Int) (rest : List (Nat × Int))
    (g2 : List version) (v : version) (hv : v ∈ g2)
    (hlen : decide (((groupPairs (fun w => w.segments.getD idx "") g2).length : Int)
      ≤ amount) = true)
    (hall : (groupPairs (fun w => w.segments.getD idx "") g2).all
      (fun pr => coversAll pr.2 rest) = true)
    (ihv : ∀ pr ∈ groupPairs (fun w => w.segments.getD idx "") g2,
      coversAll pr.2 rest = true → ∀ u ∈ pr.2, u.raw ∈ retainLevel pr.2 rest) :
    v.raw ∈ (((groupPairs (fun w => w.segments.getD idx "") g2).mergeSort
        (fun a b => decide (0 ≤ compareSegStr a.1 b.1))).take
        ((min amount (Int.ofNat (groupPairs
          (fun w => w.segments.getD idx "") g2).length)).toNat)).flatMap
        (fun pr => retainLevel pr.2 rest) := by
  have hp := groupPairs_mem_self (fun w => w.segments.getD idx "") g2 v hv
  have hlen2 : ((groupPairs (fun w => w.segments.getD idx "") g2).length : Int) ≤ amount :=
    of_decide_eq_true hlen
  have hn : (min amount (Int.ofNat (groupPairs
      (fun w => w.segments.getD idx "") g2).length)).toNat
      = (groupPairs (fun w => w.segments.getD idx "") g2).length := by
    rw [Int.ofNat_eq_coe]
    omega
  rw [hn, List.take_of_length_le (le_of_eq (List.length_mergeSort _))]
  refine List.mem_flatMap.mpr ⟨_, ((List.mergeSort_perm _ _).mem_iff).mpr hp.1, ?_⟩
  exact ihv _ hp.1 (List.all_eq_true.mp hall _ hp.1) v hp.2

theorem retain_keeps :
    ∀ (levels : List (Nat × Int)) (versions : List version),
    coversAll versions levels = true →
    ∀ v ∈ versions, v.raw ∈ retainLevel versions levels := by
  intro levels
  induction levels with
  | nil =>
    intro versions hcov v hv
    cases versions with
    | nil => cases hv
    | cons v0 vs =>
      rw [retainLevel]
      simp only [coversAll] at hcov
      have hall := List.all_eq_true.mp hcov
      have hbest := foldl_best_mem vs v0
      have hr : v.raw =
          (vs.foldl (fun best w => if compareVersions w best > 0 then w else best) v0).raw :=
        of_decide_eq_true (List.all_eq_true.mp (hall v hv) _ hbest)
      rw [← hr]
      exact List.mem_singleton.mpr rfl
  | cons la rest ih =>
    obtain ⟨idx, amount⟩ := la
    intro versions hcov v hv
    rw [retainLevel]
    have hg := groupPairs_mem_self
      (fun w => String.intercalate ":" (w.segments.take idx)) versions v hv
    simp only [coversAll] at hcov
    have hga := List.all_eq_true.mp hcov _ hg.1
    rw [Bool.and_eq_true] at hga
    refine List.mem_flatMap.mpr ⟨_, hg.1, ?_⟩
    exact retain_keeps_cons_inner idx amount rest _ v hg.2 hga.1 hga.2
      (fun pr hpr hc u hu => ih pr.2 hc u hu)

/-- Claim C2 (corrected): under the keep-on-no-match policy, `Filter` returns
its input provided the amounts cover, at every level of every rule, the
number of distinct tracked-segment values of every group, and additionally
the versions of each final leaf all share one raw version string — the
`coversAll` condition.  Without the leaf proviso the claim fails: the final
level keeps only the best version of each leaf (see the counterexample). -/
theorem claim_C2 {T : Type _} (rules : List RetentionRule) (getVersion : T → String)
    (f : RetentionFilter T) (items : List T)
    (hf : NewRetentionFilter rules getVersion NoMatchBehavior.keep = .ok f)
    (hcov : ∀ i ∈ List.range f.rules.length,
      coversAll (f.ruleVersions items i)
        ((f.patterns.getD i ⟨[], [], 0⟩).trackedIndices.zip
          (f.rules.getD i ⟨"", []⟩).Amount) = true) :
    f.Filter items = .ok items := by
  cases hb : buildPatterns rules with
  | error e =>
    rw [NewRetentionFilter, hb] at hf
    exact Except.noConfusion hf
  | ok ps =>
    rw [NewRetentionFilter, hb] at hf
    injection hf with hf2
    have hlen : ps.length = rules.length := buildPatterns_length rules ps hb
    subst hf2
    simp only [RetentionFilter.Filter]
    rw [if_neg (by simp)]
    refine congrArg Except.ok (List.filter_eq_self.mpr ?_)
    intro it hit
    refine List.elem_eq_true_of_mem ?_
    cases hfa : RetentionFilter.findApplicableRules
        ⟨rules, ps, getVersion, NoMatchBehavior.keep⟩ (getVersion it) with
    | nil =>
      refine List.mem_append.mpr (Or.inr ?_)
      rw [if_pos trivial]
      refine List.mem_map_of_mem getVersion ?_
      refine List.mem_filter.mpr ⟨hit, ?_⟩
      rw [hfa]
      rfl
    | cons i is =>
      have hP := findLoop_sound (getVersion it)
        (fun j => j < ps.length ∧
          ∃ w, parseVersion (getVersion it) (ps.getD j ⟨[], [], 0⟩) = .ok w)
        ps.enum 0 [] (fun j hj => absurd hj (List.not_mem_nil j))
        (fun pr hpr hw => by
          have hme := List.mem_enum hpr
          refine ⟨hme.1, ?_⟩
          rw [List.getD_eq_getElem ps _ hme.1, ← hme.2]
          exact hw)
        i (by
          rw [RetentionFilter.findApplicableRules] at hfa
          rw [hfa]
          exact List.mem_cons_self i is)
      obtain ⟨hi, w, hw⟩ := hP
      have hitg : it ∈ RetentionFilter.ruleGroup
          ⟨rules, ps, getVersion, NoMatchBehavior.keep⟩ items i := by
        refine List.mem_filter.mpr ⟨hit, ?_⟩
        rw [hfa]
        simp
      have hwv : w ∈ RetentionFilter.ruleVersions
          ⟨rules, ps, getVersion, NoMatchBehavior.keep⟩ items i := by
        refine List.mem_filterMap.mpr ⟨it, hitg, ?_⟩
        rw [hw]
      refine List.mem_append.mpr (Or.inl ?_)
      refine List.mem_flatMap.mpr ⟨i, List.mem_range.mpr (hlen ▸ hi), ?_⟩
      simp only [RetentionFilter.applyRetention]
      rw [if_neg (by
        intro hemp
        exact List.ne_nil_of_mem hwv (List.isEmpty_iff.mp hemp))]
      have hkeep := retain_keeps _ _ (hcov i (List.mem_range.mpr (hlen ▸ hi))) w hwv
      rw [parseVersion_raw _ _ _ hw] at hkeep
      exact hkeep

unseal List.merge List.mergeSort compareSegments firstDedup in
/-- Claim C2 counterexample: for items `1.1` and `1.2` under rule `#.*` with
amount `[1]`, the single tracked level has exactly one distinct tracked
first-segment value (`1`), so the per-level amount covers it; yet `Filter`
under the keep-on-no-match policy returns only `1.2`, dropping `1.1` — the
engine does not return its input. -/
theorem claim_C2_counterexample :
    (firstDedup (["1.1", "1.2"].map
      (fun s => (splitSegs ['.'] s.toList []).getD 0 ""))).length = 1 ∧
    (do
      let f ← NewRetentionFilter [⟨"#.*", [1]⟩] (fun s : String => s)
        NoMatchBehavior.keep
      f.Filter ["1.1", "1.2"])
      = Except.ok ["1.2"] ∧
    (["1.2"] : List String) ≠ ["1.1", "1.2"] := by
  exact ⟨by decide, rfl, by decide⟩

unseal List.merge List.mergeSort compareSegments firstDedup in
/-- Concrete instantiation of claim C2: rule `#` with amount `[2]` on items
`1` and `2` satisfies the covering condition, and `Filter` returns its
input. -/
theorem claim_C2_witness :
    ∃ f : RetentionFilter String,
      NewRetentionFilter [⟨"#", [2]⟩] (fun s : String => s) NoMatchBehavior.keep
        = .ok f ∧ f.Filter ["1", "2"] = .ok ["1", "2"] := by
  refine ⟨⟨[⟨"#", [2]⟩], [⟨[], [0], 1⟩], fun s => s, NoMatchBehavior.keep⟩, rfl, ?_⟩
  exact claim_C2 [⟨"#", [2]⟩] (fun s => s)
    ⟨[⟨"#", [2]⟩], [⟨[], [0], 1⟩], fun s => s, NoMatchBehavior.keep⟩
    ["1", "2"] rfl (by decide)

/-! Support for claim C4. -/

theorem updateLatest_comm (m : LatestMap) (p q : DebPackage) (d e : String)
    (hties : p.Name = q.Name → d = e → p.Architecture = q.Architecture →
      CompareVersions p.Version q.Version = 0 → p = q) (n dd aa : String) :
    Repository.updateLatest (Repository.updateLatest m p d p.Architecture)
        q e q.Architecture n dd aa
      = Repository.updateLatest (Repository.updateLatest m q e q.Architecture)
        p d p.Architecture n dd aa := by
  have hanti := CompareVersions_laws.antisym p.Version q.Version
  by_cases hq : n = q.Name ∧ dd = e ∧ aa = q.Architecture <;>
    by_cases hp : n = p.Name ∧ dd = d ∧ aa = p.Architecture
  · obtain ⟨hq1, hq2, hq3⟩ := hq
    obtain ⟨hp1, hp2, hp3⟩ := hp
    have h1 : q.Name = p.Name := hq1.symm.trans hp1
    have h2 : e = d := hq2.symm.trans hp2
    have h3 : q.Architecture = p.Architecture := hq3.symm.trans hp3
    have hpq : CompareVersions p.Version q.Version = 0 → p = q :=
      hties h1.symm h2.symm h3.symm
    simp only [Repository.updateLatest, if_pos (⟨hq1, hq2, hq3⟩ :
        n = q.Name ∧ dd = e ∧ aa = q.Architecture),
      if_pos (⟨hp1, hp2, hp3⟩ : n = p.Name ∧ dd = d ∧ aa = p.Architecture),
      if_pos (⟨h1, h2, h3⟩ : q.Name = p.Name ∧ e = d ∧ q.Architecture = p.Architecture),
      if_pos (⟨h1.symm, h2.symm, h3.symm⟩ :
        p.Name = q.Name ∧ d = e ∧ p.Architecture = q.Architecture)]
    rw [h1, h2, h3]
    cases hx : m p.Name d p.Architecture with
    | none =>
      by_cases c1 : CompareVersions q.Version p.Version ≤ 0 <;>
        by_cases c2 : CompareVersions p.Version q.Version ≤ 0
      · simp only [if_pos c1, if_pos c2]
        have : CompareVersions p.Version q.Version = 0 := by omega
        rw [hpq this]
      · simp only [if_pos c1, if_neg c2]
      · simp only [if_neg c1, if_pos c2]
      · omega
    | some r =>
      have hanti2 := CompareVersions_laws.antisym q.Version r.Version
      have hanti3 := CompareVersions_laws.antisym p.Version r.Version
      by_cases cpr : CompareVersions p.Version r.Version ≤ 0 <;>
        by_cases cqr : CompareVersions q.Version r.Version ≤ 0
      · simp only [if_pos cpr, if_pos cqr]
      · simp only [if_pos cpr, if_neg cqr]
        have hpq2 : CompareVersions p.Version q.Version ≤ 0 := by
          rcases lt_or_eq_of_le cpr with hlt | heq0
          · have hrq : CompareVersions r.Version q.Version < 0 := by omega
            have := CompareVersions_laws.trans_neg _ _ _ hlt hrq
            omega
          · have := CompareVersions_laws.zero_left p.Version r.Version q.Version heq0
            omega
        simp only [if_pos hpq2]
      · simp only [if_neg cpr, if_pos cqr]
        have hqp2 : CompareVersions q.Version p.Version ≤ 0 := by
          rcases lt_or_eq_of_le cqr with hlt | heq0
          · have hrp : CompareVersions r.Version p.Version < 0 := by omega
            have := CompareVersions_laws.trans_neg _ _ _ hlt hrp
            omega
          · have := CompareVersions_laws.zero_left q.Version r.Version p.Version heq0
            omega
        simp only [if_pos hqp2]
      · simp only [if_neg cpr, if_neg cqr]
        by_cases c1 : CompareVersions q.Version p.Version ≤ 0 <;>
          by_cases c2 : CompareVersions p.Version q.Version ≤ 0
        · simp only [if_pos c1, if_pos c2]
          have : CompareVersions p.Version q.Version = 0 := by omega
          rw [hpq this]
        · simp only [if_pos c1, if_neg c2]
        · simp only [if_neg c1, if_pos c2]
        · omega
  · have hqp : ¬(q.Name = p.Name ∧ e = d ∧ q.Architecture = p.Architecture) := by
      intro ⟨h1, h2, h3⟩
      exact hp ⟨hq.1.trans h1, hq.2.1.trans h2, hq.2.2.trans h3⟩
    simp only [Repository.updateLatest, if_pos hq, if_neg hp, if_neg hqp]
  · have hpq : ¬(p.Name = q.Name ∧ d = e ∧ p.Architecture = q.Architecture) := by
      intro ⟨h1, h2, h3⟩
      exact hq ⟨hp.1.trans h1, hp.2.1.trans h2, hp.2.2.trans h3⟩
    simp only [Repository.updateLatest, if_neg hq, if_pos hp, if_neg hpq]
  · simp only [Repository.updateLatest, if_neg hq, if_neg hp]

/-- Claim C4 (corrected): the latest index never regresses — an `AddPackage`
call leaves every existing entry in place or replaces it by a package of
strictly greater Debian version (an equal version keeps the incumbent); and
the final mapping is insertion-order independent provided distinct packages
never collide on the same (name, distribution, architecture) key with
Debian-equal versions.  Without that proviso the order matters: Debian-equal
but textually distinct versions keep whichever arrived first (see the
counterexample). -/
theorem claim_C4 :
    (∀ (latest : LatestMap) (pkg : DebPackage) (dist n d a : String) (q : DebPackage),
      latest n d a = some q →
      ∃ q2, Repository.AddPackage latest pkg dist n d a = some q2 ∧
        (q2 = q ∨ 0 < CompareVersions q2.Version q.Version)) ∧
    (∀ (l1 l2 : List (DebPackage × String)), l1.Perm l2 →
      (∀ pc1 ∈ l1, ∀ pc2 ∈ l1, pc1.1.Name = pc2.1.Name → pc1.2 = pc2.2 →
        pc1.1.Architecture = pc2.1.Architecture →
        CompareVersions pc1.1.Version pc2.1.Version = 0 → pc1.1 = pc2.1) →
      ∀ (latest : LatestMap) (n d a : String),
        Repository.addAll l1 latest n d a = Repository.addAll l2 latest n d a) := by
  constructor
  · intro latest pkg dist n d a q hq
    by_cases hk : n = pkg.Name ∧ d = dist ∧ a = pkg.Architecture
    · obtain ⟨h1, h2, h3⟩ := hk
      subst h1
      subst h2
      subst h3
      by_cases hc : CompareVersions pkg.Version q.Version ≤ 0
      · refine ⟨q, ?_, Or.inl rfl⟩
        simp only [Repository.AddPackage, Repository.updateLatest, hq, if_pos hc]
        simp
      · refine ⟨pkg, ?_, Or.inr (by omega)⟩
        simp only [Repository.AddPackage, Repository.updateLatest, hq, if_neg hc]
        simp
    · refine ⟨q, ?_, Or.inl rfl⟩
      simp only [Repository.AddPackage, Repository.updateLatest, if_neg hk]
      exact hq
  · intro l1 l2 hperm hties latest n d a
    have heq := @List.Perm.foldl_eq' LatestMap (DebPackage × String)
      (fun m pc => Repository.AddPackage m pc.1 pc.2) l1 l2 hperm
      (fun x hx y hy z => funext fun nn => funext fun dd => funext fun aa =>
        updateLatest_comm z x.1 y.1 x.2 y.2 (hties x hx y hy) nn dd aa) latest
    rw [Repository.addAll, Repository.addAll, heq]

unseal compareSegments in
/-- Claim C4 counterexample: the textually distinct versions `1.0` and
`1.00` are Debian-equal, so the final latest entry depends on insertion
order — each order keeps its first-seen package. -/
theorem claim_C4_counterexample :
    Repository.addAll [(⟨"pkg", "1.0", "amd64"⟩, "d"), (⟨"pkg", "1.00", "amd64"⟩, "d")]
      emptyLatest "pkg" "d" "amd64" = some ⟨"pkg", "1.0", "amd64"⟩ ∧
    Repository.addAll [(⟨"pkg", "1.00", "amd64"⟩, "d"), (⟨"pkg", "1.0", "amd64"⟩, "d")]
      emptyLatest "pkg" "d" "amd64" = some ⟨"pkg", "1.00", "amd64"⟩ ∧
    CompareVersions "1.0" "1.00" = 0 ∧
    (⟨"pkg", "1.0", "amd64"⟩ : DebPackage) ≠ ⟨"pkg", "1.00", "amd64"⟩ := by
  exact ⟨by decide, by decide, by decide, by decide⟩

unseal compareSegments in
/-- Concrete instantiation of claim C4: an incumbent `1.0` is kept or
strictly improved by adding `2.0`, and two distinct-name additions commute. -/
theorem claim_C4_witness :
    (∃ q2, Repository.AddPackage
        (fun n d a => if n = "pkg" ∧ d = "dist" ∧ a = "amd64"
          then some ⟨"pkg", "1.0", "amd64"⟩ else none)
        ⟨"pkg", "2.0", "amd64"⟩ "dist" "pkg" "dist" "amd64" = some q2 ∧
      (q2 = ⟨"pkg", "1.0", "amd64"⟩ ∨
        0 < CompareVersions q2.Version ("1.0" : String))) ∧
    Repository.addAll [(⟨"a", "1.0", "x"⟩, "d"), (⟨"b", "2.0", "x"⟩, "d")]
      emptyLatest "a" "d" "x"
      = Repository.addAll [(⟨"b", "2.0", "x"⟩, "d"), (⟨"a", "1.0", "x"⟩, "d")]
      emptyLatest "a" "d" "x" := by
  constructor
  · exact claim_C4.1
      (fun n d a => if n = "pkg" ∧ d = "dist" ∧ a = "amd64"
        then some ⟨"pkg", "1.0", "amd64"⟩ else none)
      ⟨"pkg", "2.0", "amd64"⟩ "dist" "pkg" "dist" "amd64"
      ⟨"pkg", "1.0", "amd64"⟩ (by decide)
  · exact claim_C4.2
      [(⟨"a", "1.0", "x"⟩, "d"), (⟨"b", "2.0", "x"⟩, "d")]
      [(⟨"b", "2.0", "x"⟩, "d"), (⟨"a", "1.0", "x"⟩, "d")]
      (by decide) (by decide) emptyLatest "a" "d" "x"

/-! Support for claim C6. -/

theorem setPc_true (s : DedupState) (p : ThreadPhase) :
    s.setPc true p = { s with pc1 := p } := rfl

theorem setPc_false (s : DedupState) (p : ThreadPhase) :
    s.setPc false p = { s with pc2 := p } := rfl

theorem bool_other {u t : Bool} (h : ¬ u = t) : u = !t := by
  cases u <;> cases t <;> simp_all

theorem collided_none_of_start (r1 r2 : DownloadRequest) (s : DedupState) (t : Bool)
    (hinv : DedupInv r1 r2 s) (h1 : s.pc t = .start) : s.collided = none := by
  cases hc : s.collided with
  | none => rfl
  | some t0 =>
    by_cases ht : t = t0
    · rw [ht] at h1
      rcases hinv.loserSt t0 hc with ⟨g2, hg2⟩ | ⟨o, hg2⟩ <;>
        (rw [h1] at hg2; exact ThreadPhase.noConfusion hg2)
    · rw [bool_other ht] at h1
      rcases hinv.winnerSt t0 hc with ⟨g, hg⟩ | ⟨g, hg⟩ | hg <;>
        (rw [h1] at hg; exact ThreadPhase.noConfusion hg)

theorem inv_regWin (r1 r2 : DownloadRequest) (s : DedupState) (t : Bool)
    (h1 : s.pc t = .start) (h2 : s.flight = none) (hinv : DedupInv r1 r2 s) :
    DedupInv r1 r2 { s.setPc t (.downloading s.recs.length) with
      flight := some s.recs.length,
      recs := s.recs ++ [⟨(reqOf r1 r2 t).URL, (reqOf r1 r2 t).Checksum, false, none⟩] } := by
  have hnoDown : ∀ u g, ¬ s.pc u = .downloading g := fun u g hu => by
    have hf := (hinv.ownDown u g hu).1
    rw [h2] at hf
    exact Option.noConfusion hf
  have hnoComp : ∀ u g, ¬ s.pc u = .completedPh g := fun u g hu => by
    have hf := (hinv.ownComp u g hu).1
    rw [h2] at hf
    exact Option.noConfusion hf
  have hcol := collided_none_of_start r1 r2 s t hinv h1
  have hwf : s.waited = false := by
    cases hw : s.waited with
    | false => rfl
    | true =>
      rcases hinv.waitedCol hw with ⟨t0, hc⟩
      rw [hcol] at hc
      exact Option.noConfusion hc
  have hnoWait : ∀ u g, ¬ s.pc u = .waitingOn g := fun u g hu => by
    have hc := (hinv.waitInv u g hu).1
    rw [hcol] at hc
    exact Option.noConfusion hc
  cases t with
  | true =>
    rw [setPc_true]
    refine ⟨?_, ?_, ?_, ?_, ?_, ?_, ?_, ?_, ?_, ?_⟩
    · show s.downloads
        = dlContrib (ThreadPhase.downloading s.recs.length) true + dlContrib s.pc2 false
      rw [hinv.dl]
      have h1x : s.pc1 = .start := h1
      rw [h1x]
      rfl
    · intro g hg
      have hg2 : some s.recs.length = some g := hg
      injection hg2 with hgl
      refine ⟨true, Or.inl ?_⟩
      show ThreadPhase.downloading s.recs.length = .downloading g
      rw [hgl]
    · intro u g hu
      cases u with
      | true =>
        have hu2 : ThreadPhase.downloading s.recs.length = .downloading g := hu
        injection hu2 with hgl
        subst hgl
        exact ⟨rfl, ⟨(reqOf r1 r2 true).URL, (reqOf r1 r2 true).Checksum, false, none⟩,
          List.get?_concat_length s.recs _, rfl, rfl, rfl⟩
      | false => exact absurd hu (hnoDown false g)
    · intro u g hu
      cases u with
      | true =>
        exact ThreadPhase.noConfusion
          (show ThreadPhase.downloading s.recs.length = .completedPh g from hu)
      | false => exact absurd hu (hnoComp false g)
    · intro u g hu
      cases u with
      | true =>
        exact ThreadPhase.noConfusion
          (show ThreadPhase.downloading s.recs.length = .waitingOn g from hu)
      | false => exact absurd hu (hnoWait false g)
    · intro u o hc hfin
      have hc2 : s.collided = some u := hc
      rw [hcol] at hc2
      exact Option.noConfusion hc2
    · intro u hc
      have hc2 : s.collided = some u := hc
      rw [hcol] at hc2
      exact Option.noConfusion hc2
    · intro u hc
      have hc2 : s.collided = some u := hc
      rw [hcol] at hc2
      exact Option.noConfusion hc2
    · intro hw
      have hw2 : s.waited = true := hw
      rw [hwf] at hw2
      exact Bool.noConfusion hw2
    · intro g g2 hA hB
      rcases hB with hB | hB
      · exact hnoDown false g2 hB
      · exact hnoComp false g2 hB
  | false =>
    rw [setPc_false]
    refine ⟨?_, ?_, ?_, ?_, ?_, ?_, ?_, ?_, ?_, ?_⟩
    · show s.downloads
        = dlContrib s.pc1 true + dlContrib (ThreadPhase.downloading s.recs.length) false
      rw [hinv.dl]
      have h1x : s.pc2 = .start := h1
      rw [h1x]
      rfl
    · intro g hg
      have hg2 : some s.recs.length = some g := hg
      injection hg2 with hgl
      refine ⟨false, Or.inl ?_⟩
      show ThreadPhase.downloading s.recs.length = .downloading g
      rw [hgl]
    · intro u g hu
      cases u with
      | false =>
        have hu2 : ThreadPhase.downloading s.recs.length = .downloading g := hu
        injection hu2 with hgl
        subst hgl
        exact ⟨rfl, ⟨(reqOf r1 r2 false).URL, (reqOf r1 r2 false).Checksum, false, none⟩,
          List.get?_concat_length s.recs _, rfl, rfl, rfl⟩
      | true => exact absurd hu (hnoDown true g)
    · intro u g hu
      cases u with
      | false =>
        exact ThreadPhase.noConfusion
          (show ThreadPhase.downloading s.recs.length = .completedPh g from hu)
      | true => exact absurd hu (hnoComp true g)
    · intro u g hu
      cases u with
      | false =>
        exact ThreadPhase.noConfusion
          (show ThreadPhase.downloading s.recs.length = .waitingOn g from hu)
      | true => exact absurd hu (hnoWait true g)
    · intro u o hc hfin
      have hc2 : s.collided = some u := hc
      rw [hcol] at hc2
      exact Option.noConfusion hc2
    · intro u hc
      have hc2 : s.collided = some u := hc
      rw [hcol] at hc2
      exact Option.noConfusion hc2
    · intro u hc
      have hc2 : s.collided = some u := hc
      rw [hcol] at hc2
      exact Option.noConfusion hc2
    · intro hw
      have hw2 : s.waited = true := hw
      rw [hwf] at hw2
      exact Bool.noConfusion hw2
    · intro g g2 hA hB
      rcases hA with hA | hA
      · exact hnoDown true g hA
      · exact hnoComp true g hA

theorem inv_regLoseWait (r1 r2 : DownloadRequest) (s : DedupState) (t : Bool)
    (g : Nat) (w : WaiterRec)
    (h1 : s.pc t = .start) (h2 : s.flight = some g) (h3 : s.recs.get? g = some w)
    (h4 : validateCollision (reqOf r1 r2 t) w.url w.checksum = none)
    (hinv : DedupInv r1 r2 s) :
    DedupInv r1 r2 { s.setPc t (.waitingOn g) with collided := some t, waited := true } := by
  have hcol := collided_none_of_start r1 r2 s t hinv h1
  have hnoWait : ∀ u g2, ¬ s.pc u = .waitingOn g2 := fun u g2 hu => by
    have hc := (hinv.waitInv u g2 hu).1
    rw [hcol] at hc
    exact Option.noConfusion hc
  rcases hinv.flightOwner g h2 with ⟨u, hu⟩
  have hut : ¬ u = t := by
    intro he
    rw [he, h1] at hu
    rcases hu with hu | hu <;> exact ThreadPhase.noConfusion hu
  rw [bool_other hut] at hu
  have hflds : w.url = (reqOf r1 r2 (!t)).URL ∧ w.checksum = (reqOf r1 r2 (!t)).Checksum ∧
      (w.done = false → s.pc (!t) = .downloading g) ∧
      (w.done = true → w.result = some (.success (!t))) := by
    rcases hu with hu | hu
    · rcases hinv.ownDown (!t) g hu with ⟨hf, w2, hg2, hd2, hu2, hc2⟩
      rw [h3] at hg2
      injection hg2 with hw2
      rw [← hw2] at hd2 hu2 hc2
      exact ⟨hu2, hc2, fun _ => hu, fun hdt => by rw [hd2] at hdt; exact Bool.noConfusion hdt⟩
    · rcases hinv.ownComp (!t) g hu with ⟨hf, w2, hg2, hd2, hr2, hu2, hc2⟩
      rw [h3] at hg2
      injection hg2 with hw2
      rw [← hw2] at hd2 hr2 hu2 hc2
      exact ⟨hu2, hc2, fun hdf => by rw [hd2] at hdf; exact Bool.noConfusion hdf, fun _ => hr2⟩
  have h4x : validateCollision (reqOf r1 r2 t) (reqOf r1 r2 (!t)).URL
      (reqOf r1 r2 (!t)).Checksum = none := by
    rw [← hflds.1, ← hflds.2.1]
    exact h4
  have hown := hu
  cases t with
  | true =>
    rw [setPc_true]
    refine ⟨?_, ?_, ?_, ?_, ?_, ?_, ?_, ?_, ?_, ?_⟩
    · show s.downloads = dlContrib (ThreadPhase.waitingOn g) true + dlContrib s.pc2 false
      rw [hinv.dl]
      have h1x : s.pc1 = .start := h1
      rw [h1x]
      rfl
    · intro g2 hg2
      have hg2x : s.flight = some g2 := hg2
      rcases hinv.flightOwner g2 hg2x with ⟨u2, hu2⟩
      cases u2 with
      | true =>
        rw [h1] at hu2
        rcases hu2 with hu2 | hu2 <;> exact ThreadPhase.noConfusion hu2
      | false => exact ⟨false, hu2⟩
    · intro u2 g2 hu2
      cases u2 with
      | true =>
        exact ThreadPhase.noConfusion
          (show ThreadPhase.waitingOn g = .downloading g2 from hu2)
      | false => exact hinv.ownDown false g2 hu2
    · intro u2 g2 hu2
      cases u2 with
      | true =>
        exact ThreadPhase.noConfusion
          (show ThreadPhase.waitingOn g = .completedPh g2 from hu2)
      | false => exact hinv.ownComp false g2 hu2
    · intro u2 g2 hu2
      cases u2 with
      | true =>
        have hu2x : ThreadPhase.waitingOn g = .waitingOn g2 := hu2
        injection hu2x with hgg
        subst hgg
        exact ⟨rfl, rfl, h4x, w, h3, hflds.2.2.1, hflds.2.2.2⟩
      | false => exact absurd hu2 (hnoWait false g2)
    · intro u2 o hc hfin
      have hcx : some true = some u2 := hc
      injection hcx with hcu
      rw [← hcu] at hfin
      exact ThreadPhase.noConfusion (show ThreadPhase.waitingOn g = .finished o from hfin)
    · intro u2 hc
      have hcx : some true = some u2 := hc
      injection hcx with hcu
      rw [← hcu]
      rcases hown with hu | hu
      · exact Or.inl ⟨g, hu⟩
      · exact Or.inr (Or.inl ⟨g, hu⟩)
    · intro u2 hc
      have hcx : some true = some u2 := hc
      injection hcx with hcu
      rw [← hcu]
      exact Or.inl ⟨g, rfl⟩
    · intro _
      exact ⟨true, rfl⟩
    · intro g1 g2 hA hB
      rcases hA with hA | hA <;>
        exact ThreadPhase.noConfusion (show ThreadPhase.waitingOn g = _ from hA)
  | false =>
    rw [setPc_false]
    refine ⟨?_, ?_, ?_, ?_, ?_, ?_, ?_, ?_, ?_, ?_⟩
    · show s.downloads = dlContrib s.pc1 true + dlContrib (ThreadPhase.waitingOn g) false
      rw [hinv.dl]
      have h1x : s.pc2 = .start := h1
      rw [h1x]
      rfl
    · intro g2 hg2
      have hg2x : s.flight = some g2 := hg2
      rcases hinv.flightOwner g2 hg2x with ⟨u2, hu2⟩
      cases u2 with
      | false =>
        rw [h1] at hu2
        rcases hu2 with hu2 | hu2 <;> exact ThreadPhase.noConfusion hu2
      | true => exact ⟨true, hu2⟩
    · intro u2 g2 hu2
      cases u2 with
      | false =>
        exact ThreadPhase.noConfusion
          (show ThreadPhase.waitingOn g = .downloading g2 from hu2)
      | true => exact hinv.ownDown true g2 hu2
    · intro u2 g2 hu2
      cases u2 with
      | false =>
        exact ThreadPhase.noConfusion
          (show ThreadPhase.waitingOn g = .completedPh g2 from hu2)
      | true => exact hinv.ownComp true g2 hu2
    · intro u2 g2 hu2
      cases u2 with
      | false =>
        have hu2x : ThreadPhase.waitingOn g = .waitingOn g2 := hu2
        injection hu2x with hgg
        subst hgg
        exact ⟨rfl, rfl, h4x, w, h3, hflds.2.2.1, hflds.2.2.2⟩
      | true => exact absurd hu2 (hnoWait true g2)
    · intro u2 o hc hfin
      have hcx : some false = some u2 := hc
      injection hcx with hcu
      rw [← hcu] at hfin
      exact ThreadPhase.noConfusion (show ThreadPhase.waitingOn g = .finished o from hfin)
    · intro u2 hc
      have hcx : some false = some u2 := hc
      injection hcx with hcu
      rw [← hcu]
      rcases hown with hu | hu
      · exact Or.inl ⟨g, hu⟩
      · exact Or.inr (Or.inl ⟨g, hu⟩)
    · intro u2 hc
      have hcx : some false = some u2 := hc
      injection hcx with hcu
      rw [← hcu]
      exact Or.inl ⟨g, rfl⟩
    · intro _
      exact ⟨false, rfl⟩
    · intro g1 g2 hA hB
      rcases hB with hB | hB <;>
        exact ThreadPhase.noConfusion (show ThreadPhase.waitingOn g = _ from hB)

theorem inv_regLoseErr (r1 r2 : DownloadRequest) (s : DedupState) (t : Bool)
    (g : Nat) (w : WaiterRec) (e : DlErr)
    (h1 : s.pc t = .start) (h2 : s.flight = some g) (h3 : s.recs.get? g = some w)
    (h4 : validateCollision (reqOf r1 r2 t) w.url w.checksum = some e)
    (hinv : DedupInv r1 r2 s) :
    DedupInv r1 r2 { s.setPc t (.finished (.failure e)) with collided := some t } := by
  have hcol := collided_none_of_start r1 r2 s t hinv h1
  have hwf : s.waited = false := by
    cases hw : s.waited with
    | false => rfl
    | true =>
      rcases hinv.waitedCol hw with ⟨t0, hc⟩
      rw [hcol] at hc
      exact Option.noConfusion hc
  have hnoWait : ∀ u g2, ¬ s.pc u = .waitingOn g2 := fun u g2 hu => by
    have hc := (hinv.waitInv u g2 hu).1
    rw [hcol] at hc
    exact Option.noConfusion hc
  rcases hinv.flightOwner g h2 with ⟨u, hu⟩
  have hut : ¬ u = t := by
    intro he
    rw [he, h1] at hu
    rcases hu with hu | hu <;> exact ThreadPhase.noConfusion hu
  rw [bool_other hut] at hu
  have hflds : w.url = (reqOf r1 r2 (!t)).URL ∧ w.checksum = (reqOf r1 r2 (!t)).Checksum := by
    rcases hu with hu | hu
    · rcases hinv.ownDown (!t) g hu with ⟨hf, w2, hg2, hd2, hu2, hc2⟩
      rw [h3] at hg2
      injection hg2 with hw2
      rw [← hw2] at hu2 hc2
      exact ⟨hu2, hc2⟩
    · rcases hinv.ownComp (!t) g hu with ⟨hf, w2, hg2, hd2, hr2, hu2, hc2⟩
      rw [h3] at hg2
      injection hg2 with hw2
      rw [← hw2] at hu2 hc2
      exact ⟨hu2, hc2⟩
  have h4x : validateCollision (reqOf r1 r2 t) (reqOf r1 r2 (!t)).URL
      (reqOf r1 r2 (!t)).Checksum = some e := by
    rw [← hflds.1, ← hflds.2]
    exact h4
  have hown := hu
  cases t with
  | true =>
    rw [setPc_true]
    refine ⟨?_, ?_, ?_, ?_, ?_, ?_, ?_, ?_, ?_, ?_⟩
    · show s.downloads
        = dlContrib (ThreadPhase.finished (.failure e)) true + dlContrib s.pc2 false
      rw [hinv.dl]
      have h1x : s.pc1 = .start := h1
      rw [h1x]
      rfl
    · intro g2 hg2
      have hg2x : s.flight = some g2 := hg2
      rcases hinv.flightOwner g2 hg2x with ⟨u2, hu2⟩
      cases u2 with
      | true =>
        rw [h1] at hu2
        rcases hu2 with hu2 | hu2 <;> exact ThreadPhase.noConfusion hu2
      | false => exact ⟨false, hu2⟩
    · intro u2 g2 hu2
      cases u2 with
      | true =>
        exact ThreadPhase.noConfusion
          (show ThreadPhase.finished (.failure e) = .downloading g2 from hu2)
      | false => exact hinv.ownDown false g2 hu2
    · intro u2 g2 hu2
      cases u2 with
      | true =>
        exact ThreadPhase.noConfusion
          (show ThreadPhase.finished (.failure e) = .completedPh g2 from hu2)
      | false => exact hinv.ownComp false g2 hu2
    · intro u2 g2 hu2
      cases u2 with
      | true =>
        exact ThreadPhase.noConfusion
          (show ThreadPhase.finished (.failure e) = .waitingOn g2 from hu2)
      | false => exact absurd hu2 (hnoWait false g2)
    · intro u2 o hc hfin
      have hcx : some true = some u2 := hc
      injection hcx with hcu
      rw [← hcu] at hfin ⊢
      have hfinx : ThreadPhase.finished (.failure e) = .finished o := hfin
      injection hfinx with ho
      refine Or.inr ⟨hwf, e, ho.symm, h4x⟩
    · intro u2 hc
      have hcx : some true = some u2 := hc
      injection hcx with hcu
      rw [← hcu]
      rcases hown with hu | hu
      · exact Or.inl ⟨g, hu⟩
      · exact Or.inr (Or.inl ⟨g, hu⟩)
    · intro u2 hc
      have hcx : some true = some u2 := hc
      injection hcx with hcu
      rw [← hcu]
      exact Or.inr ⟨.failure e, rfl⟩
    · intro hw
      have hw2 : s.waited = true := hw
      rw [hwf] at hw2
      exact Bool.noConfusion hw2
    · intro g1 g2 hA hB
      rcases hA with hA | hA <;>
        exact ThreadPhase.noConfusion (show ThreadPhase.finished (.failure e) = _ from hA)
  | false =>
    rw [setPc_false]
    refine ⟨?_, ?_, ?_, ?_, ?_, ?_, ?_, ?_, ?_, ?_⟩
    · show s.downloads
        = dlContrib s.pc1 true + dlContrib (ThreadPhase.finished (.failure e)) false
      rw [hinv.dl]
      have h1x : s.pc2 = .start := h1
      rw [h1x]
      rfl
    · intro g2 hg2
      have hg2x : s.flight = some g2 := hg2
      rcases hinv.flightOwner g2 hg2x with ⟨u2, hu2⟩
      cases u2 with
      | false =>
        rw [h1] at hu2
        rcases hu2 with hu2 | hu2 <;> exact ThreadPhase.noConfusion hu2
      | true => exact ⟨true, hu2⟩
    · intro u2 g2 hu2
      cases u2 with
      | false =>
        exact ThreadPhase.noConfusion
          (show ThreadPhase.finished (.failure e) = .downloading g2 from hu2)
      | true => exact hinv.ownDown true g2 hu2
    · intro u2 g2 hu2
      cases u2 with
      | false =>
        exact ThreadPhase.noConfusion
          (show ThreadPhase.finished (.failure e) = .completedPh g2 from hu2)
      | true => exact hinv.ownComp true g2 hu2
    · intro u2 g2 hu2
      cases u2 with
      | false =>
        exact ThreadPhase.noConfusion
          (show ThreadPhase.finished (.failure e) = .waitingOn g2 from hu2)
      | true => exact absurd hu2 (hnoWait true g2)
    · intro u2 o hc hfin
      have hcx : some false = some u2 := hc
      injection hcx with hcu
      rw [← hcu] at hfin ⊢
      have hfinx : ThreadPhase.finished (.failure e) = .finished o := hfin
      injection hfinx with ho
      refine Or.inr ⟨hwf, e, ho.symm, h4x⟩
    · intro u2 hc
      have hcx : some false = some u2 := hc
      injection hcx with hcu
      rw [← hcu]
      rcases hown with hu | hu
      · exact Or.inl ⟨g, hu⟩
      · exact Or.inr (Or.inl ⟨g, hu⟩)
    · intro u2 hc
      have hcx : some false = some u2 := hc
      injection hcx with hcu
      rw [← hcu]
      exact Or.inr ⟨.failure e, rfl⟩
    · intro hw
      have hw2 : s.waited = true := hw
      rw [hwf] at hw2
      exact Bool.noConfusion hw2
    · intro g1 g2 hA hB
      rcases hB with hB | hB <;>
        exact ThreadPhase.noConfusion (show ThreadPhase.finished (.failure e) = _ from hB)

theorem inv_complete (r1 r2 : DownloadRequest) (s : DedupState) (t : Bool)
    (g : Nat) (w : WaiterRec)
    (h1 : s.pc t = .downloading g) (h2 : s.recs.get? g = some w)
    (hinv : DedupInv r1 r2 s) :
    DedupInv r1 r2 { s.setPc t (.completedPh g) with
      recs := s.recs.set g { w with done := true, result := some (.success t) },
      downloads := s.downloads + 1 } := by
  rcases hinv.ownDown t g h1 with ⟨hf, w2, hw2get, hw2done, hw2url, hw2ck⟩
  rw [h2] at hw2get
  injection hw2get with hw2
  rw [← hw2] at hw2done hw2url hw2ck
  have hsetg :
      (s.recs.set g { w with done := true, result := some (.success t) }).get? g
      = some { w with done := true, result := some (.success t) } := by
    rw [List.get?_set_eq, h2]
    rfl
  cases t with
  | true =>
    have h1x : s.pc1 = .downloading g := h1
    rw [setPc_true]
    refine ⟨?_, ?_, ?_, ?_, ?_, ?_, ?_, ?_, ?_, ?_⟩
    · show s.downloads + 1
        = dlContrib (ThreadPhase.completedPh g) true + dlContrib s.pc2 false
      rw [hinv.dl, h1x]
      simp only [dlContrib]
      omega
    · intro g2 hg2
      have hg2x : s.flight = some g2 := hg2
      rw [hf] at hg2x
      injection hg2x with hgg
      refine ⟨true, Or.inr ?_⟩
      show ThreadPhase.completedPh g = .completedPh g2
      rw [hgg]
    · intro u2 g2 hu2
      cases u2 with
      | true =>
        exact ThreadPhase.noConfusion
          (show ThreadPhase.completedPh g = .downloading g2 from hu2)
      | false =>
        exact (hinv.uniq g g2 (Or.inl h1x) (Or.inl hu2)).elim
    · intro u2 g2 hu2
      cases u2 with
      | true =>
        have hu2x : ThreadPhase.completedPh g = .completedPh g2 := hu2
        injection hu2x with hgg
        subst hgg
        exact ⟨hf, { w with done := true, result := some (.success true) },
          hsetg, rfl, rfl, hw2url, hw2ck⟩
      | false =>
        exact (hinv.uniq g g2 (Or.inl h1x) (Or.inr hu2)).elim
    · intro u2 g2 hu2
      cases u2 with
      | true =>
        exact ThreadPhase.noConfusion
          (show ThreadPhase.completedPh g = .waitingOn g2 from hu2)
      | false =>
        rcases hinv.waitInv false g2 hu2 with ⟨hcw, hww, hval, w3, hw3get, hw3f, hw3t⟩
        by_cases hgg : g2 = g
        · subst hgg
          rw [h2] at hw3get
          injection hw3get with hw3
          refine ⟨hcw, hww, hval, { w with done := true, result := some (.success true) },
            hsetg, ?_, ?_⟩
          · intro hdf
            exact Bool.noConfusion (show true = false from hdf)
          · intro _
            rfl
        · refine ⟨hcw, hww, hval, w3, ?_, ?_, hw3t⟩
          · rw [List.get?_set_ne _ _ (fun he => hgg he.symm)]
            exact hw3get
          · intro hdf
            have hdl := hw3f hdf
            have hdlx : s.pc1 = .downloading g2 := hdl
            rw [h1x] at hdlx
            injection hdlx with hggx
            exact absurd hggx.symm hgg
    · intro u2 o hc hfin
      cases u2 with
      | true =>
        rcases hinv.loserSt true hc with ⟨g2, hg2⟩ | ⟨o2, ho2⟩
        · rw [h1] at hg2
          exact ThreadPhase.noConfusion hg2
        · rw [h1] at ho2
          exact ThreadPhase.noConfusion ho2
      | false =>
        exact hinv.loserFin false o hc hfin
    · intro u2 hc
      cases u2 with
      | true =>
        rcases hinv.winnerSt true hc with ⟨g2, hg2⟩ | ⟨g2, hg2⟩ | hg2
        · exact (hinv.uniq g g2 (Or.inl h1x) (Or.inl hg2)).elim
        · exact (hinv.uniq g g2 (Or.inl h1x) (Or.inr hg2)).elim
        · exact Or.inr (Or.inr hg2)
      | false =>
        exact Or.inr (Or.inl ⟨g, rfl⟩)
    · intro u2 hc
      cases u2 with
      | true =>
        rcases hinv.loserSt true hc with ⟨g2, hg2⟩ | ⟨o2, ho2⟩
        · rw [h1] at hg2
          exact ThreadPhase.noConfusion hg2
        · rw [h1] at ho2
          exact ThreadPhase.noConfusion ho2
      | false =>
        exact hinv.loserSt false hc
    · exact hinv.waitedCol
    · intro g1 g2 hA hB
      exact hinv.uniq g g2 (Or.inl h1x) hB
  | false =>
    have h1x : s.pc2 = .downloading g := h1
    rw [setPc_false]
    refine ⟨?_, ?_, ?_, ?_, ?_, ?_, ?_, ?_, ?_, ?_⟩
    · show s.downloads + 1
        = dlContrib s.pc1 true + dlContrib (ThreadPhase.completedPh g) false
      rw [hinv.dl, h1x]
      simp only [dlContrib]
    · intro g2 hg2
      have hg2x : s.flight = some g2 := hg2
      rw [hf] at hg2x
      injection hg2x with hgg
      refine ⟨false, Or.inr ?_⟩
      show ThreadPhase.completedPh g = .completedPh g2
      rw [hgg]
    · intro u2 g2 hu2
      cases u2 with
      | false =>
        exact ThreadPhase.noConfusion
          (show ThreadPhase.completedPh g = .downloading g2 from hu2)
      | true =>
        exact (hinv.uniq g2 g (Or.inl hu2) (Or.inl h1x)).elim
    · intro u2 g2 hu2
      cases u2 with
      | false =>
        have hu2x : ThreadPhase.completedPh g = .completedPh g2 := hu2
        injection hu2x with hgg
        subst hgg
        exact ⟨hf, { w with done := true, result := some (.success false) },
          hsetg, rfl, rfl, hw2url, hw2ck⟩
      | true =>
        exact (hinv.uniq g2 g (Or.inr hu2) (Or.inl h1x)).elim
    · intro u2 g2 hu2
      cases u2 with
      | false =>
        exact ThreadPhase.noConfusion
          (show ThreadPhase.completedPh g = .waitingOn g2 from hu2)
      | true =>
        rcases hinv.waitInv true g2 hu2 with ⟨hcw, hww, hval, w3, hw3get, hw3f, hw3t⟩
        by_cases hgg : g2 = g
        · subst hgg
          rw [h2] at hw3get
          injection hw3get with hw3
          refine ⟨hcw, hww, hval, { w with done := true, result := some (.success false) },
            hsetg, ?_, ?_⟩
          · intro hdf
            exact Bool.noConfusion (show true = false from hdf)
          · intro _
            rfl
        · refine ⟨hcw, hww, hval, w3, ?_, ?_, hw3t⟩
          · rw [List.get?_set_ne _ _ (fun he => hgg he.symm)]
            exact hw3get
          · intro hdf
            have hdl := hw3f hdf
            have hdlx : s.pc2 = .downloading g2 := hdl
            rw [h1x] at hdlx
            injection hdlx with hggx
            exact absurd hggx.symm hgg
    · intro u2 o hc hfin
      cases u2 with
      | false =>
        rcases hinv.loserSt false hc with ⟨g2, hg2⟩ | ⟨o2, ho2⟩
        · rw [h1] at hg2
          exact ThreadPhase.noConfusion hg2
        · rw [h1] at ho2
          exact ThreadPhase.noConfusion ho2
      | true =>
        exact hinv.loserFin true o hc hfin
    · intro u2 hc
      cases u2 with
      | false =>
        rcases hinv.winnerSt false hc with ⟨g2, hg2⟩ | ⟨g2, hg2⟩ | hg2
        · exact (hinv.uniq g2 g (Or.inl hg2) (Or.inl h1x)).elim
        · exact (hinv.uniq g2 g (Or.inr hg2) (Or.inl h1x)).elim
        · exact Or.inr (Or.inr hg2)
      | true =>
        exact Or.inr (Or.inl ⟨g, rfl⟩)
    · intro u2 hc
      cases u2 with
      | false =>
        rcases hinv.loserSt false hc with ⟨g2, hg2⟩ | ⟨o2, ho2⟩
        · rw [h1] at hg2
          exact ThreadPhase.noConfusion hg2
        · rw [h1] at ho2
          exact ThreadPhase.noConfusion ho2
      | true =>
        exact hinv.loserSt true hc
    · exact hinv.waitedCol
    · intro g1 g2 hA hB
      exact hinv.uniq g1 g hA (Or.inl h1x)

theorem inv_del (r1 r2 : DownloadRequest) (s : DedupState) (t : Bool) (g : Nat)
    (h1 : s.pc t = .completedPh g) (hinv : DedupInv r1 r2 s) :
    DedupInv r1 r2 { s.setPc t (.finished (.success t)) with flight := none } := by
  cases t with
  | true =>
    have h1x : s.pc1 = .completedPh g := h1
    rw [setPc_true]
    refine ⟨?_, ?_, ?_, ?_, ?_, ?_, ?_, ?_, ?_, ?_⟩
    · show s.downloads
        = dlContrib (ThreadPhase.finished (.success true)) true + dlContrib s.pc2 false
      rw [hinv.dl, h1x]
      simp [dlContrib]
    · intro g2 hg2
      exact Option.noConfusion (show (none : Option Nat) = some g2 from hg2)
    · intro u2 g2 hu2
      cases u2 with
      | true =>
        exact ThreadPhase.noConfusion
          (show ThreadPhase.finished (.success true) = .downloading g2 from hu2)
      | false =>
        exact (hinv.uniq g g2 (Or.inr h1x) (Or.inl hu2)).elim
    · intro u2 g2 hu2
      cases u2 with
      | true =>
        exact ThreadPhase.noConfusion
          (show ThreadPhase.finished (.success true) = .completedPh g2 from hu2)
      | false =>
        exact (hinv.uniq g g2 (Or.inr h1x) (Or.inr hu2)).elim
    · intro u2 g2 hu2
      cases u2 with
      | true =>
        exact ThreadPhase.noConfusion
          (show ThreadPhase.finished (.success true) = .waitingOn g2 from hu2)
      | false =>
        rcases hinv.waitInv false g2 hu2 with ⟨hcw, hww, hval, w3, hw3get, hw3f, hw3t⟩
        refine ⟨hcw, hww, hval, w3, hw3get, ?_, hw3t⟩
        intro hdf
        have hdlx : s.pc1 = .downloading g2 := hw3f hdf
        rw [h1x] at hdlx
        exact ThreadPhase.noConfusion hdlx
    · intro u2 o hc hfin
      cases u2 with
      | true =>
        rcases hinv.loserSt true hc with ⟨g2, hg2⟩ | ⟨o2, ho2⟩
        · rw [h1] at hg2
          exact ThreadPhase.noConfusion hg2
        · rw [h1] at ho2
          exact ThreadPhase.noConfusion ho2
      | false =>
        exact hinv.loserFin false o hc hfin
    · intro u2 hc
      cases u2 with
      | true =>
        rcases hinv.winnerSt true hc with ⟨g2, hg2⟩ | ⟨g2, hg2⟩ | hg2
        · exact (hinv.uniq g g2 (Or.inr h1x) (Or.inl hg2)).elim
        · exact (hinv.uniq g g2 (Or.inr h1x) (Or.inr hg2)).elim
        · exact Or.inr (Or.inr hg2)
      | false =>
        exact Or.inr (Or.inr rfl)
    · intro u2 hc
      cases u2 with
      | true =>
        rcases hinv.loserSt true hc with ⟨g2, hg2⟩ | ⟨o2, ho2⟩
        · rw [h1] at hg2
          exact ThreadPhase.noConfusion hg2
        · rw [h1] at ho2
          exact ThreadPhase.noConfusion ho2
      | false =>
        exact hinv.loserSt false hc
    · exact hinv.waitedCol
    · intro g1 g2 hA hB
      rcases hA with hA | hA <;>
        exact ThreadPhase.noConfusion (show ThreadPhase.finished (.success true) = _ from hA)
  | false =>
    have h1x : s.pc2 = .completedPh g := h1
    rw [setPc_false]
    refine ⟨?_, ?_, ?_, ?_, ?_, ?_, ?_, ?_, ?_, ?_⟩
    · show s.downloads
        = dlContrib s.pc1 true + dlContrib (ThreadPhase.finished (.success false)) false
      rw [hinv.dl, h1x]
      simp [dlContrib]
    · intro g2 hg2
      exact Option.noConfusion (show (none : Option Nat) = some g2 from hg2)
    · intro u2 g2 hu2
      cases u2 with
      | false =>
        exact ThreadPhase.noConfusion
          (show ThreadPhase.finished (.success false) = .downloading g2 from hu2)
      | true =>
        exact (hinv.uniq g2 g (Or.inl hu2) (Or.inr h1x)).elim
    · intro u2 g2 hu2
      cases u2 with
      | false =>
        exact ThreadPhase.noConfusion
          (show ThreadPhase.finished (.success false) = .completedPh g2 from hu2)
      | true =>
        exact (hinv.uniq g2 g (Or.inr hu2) (Or.inr h1x)).elim
    · intro u2 g2 hu2
      cases u2 with
      | false =>
        exact ThreadPhase.noConfusion
          (show ThreadPhase.finished (.success false) = .waitingOn g2 from hu2)
      | true =>
        rcases hinv.waitInv true g2 hu2 with ⟨hcw, hww, hval, w3, hw3get, hw3f, hw3t⟩
        refine ⟨hcw, hww, hval, w3, hw3get, ?_, hw3t⟩
        intro hdf
        have hdlx : s.pc2 = .downloading g2 := hw3f hdf
        rw [h1x] at hdlx
        exact ThreadPhase.noConfusion hdlx
    · intro u2 o hc hfin
      cases u2 with
      | false =>
        rcases hinv.loserSt false hc with ⟨g2, hg2⟩ | ⟨o2, ho2⟩
        · rw [h1] at hg2
          exact ThreadPhase.noConfusion hg2
        · rw [h1] at ho2
          exact ThreadPhase.noConfusion ho2
      | true =>
        exact hinv.loserFin true o hc hfin
    · intro u2 hc
      cases u2 with
      | false =>
        rcases hinv.winnerSt false hc with ⟨g2, hg2⟩ | ⟨g2, hg2⟩ | hg2
        · exact (hinv.uniq g2 g (Or.inl hg2) (Or.inr h1x)).elim
        · exact (hinv.uniq g2 g (Or.inr hg2) (Or.inr h1x)).elim
        · exact Or.inr (Or.inr hg2)
      | true =>
        exact Or.inr (Or.inr rfl)
    · intro u2 hc
      cases u2 with
      | false =>
        rcases hinv.loserSt false hc with ⟨g2, hg2⟩ | ⟨o2, ho2⟩
        · rw [h1] at hg2
          exact ThreadPhase.noConfusion hg2
        · rw [h1] at ho2
          exact ThreadPhase.noConfusion ho2
      | true =>
        exact hinv.loserSt true hc
    · exact hinv.waitedCol
    · intro g1 g2 hA hB
      rcases hB with hB | hB <;>
        exact ThreadPhase.noConfusion (show ThreadPhase.finished (.success false) = _ from hB)

theorem inv_await (r1 r2 : DownloadRequest) (s : DedupState) (t : Bool) (g : Nat)
    (w : WaiterRec)
    (h1 : s.pc t = .waitingOn g) (h2 : s.recs.get? g = some w) (h3 : w.done = true)
    (hinv : DedupInv r1 r2 s) :
    DedupInv r1 r2 (s.setPc t (.finished (w.result.getD (.success t)))) := by
  rcases hinv.waitInv t g h1 with ⟨hcw, hww, hval, w3, hw3get, hw3f, hw3t⟩
  rw [h2] at hw3get
  injection hw3get with hw3
  rw [← hw3] at hw3t
  have hres := hw3t h3
  have ho : w.result.getD (.success t) = .success (!t) := by
    rw [hres]
    rfl
  rw [ho]
  cases t with
  | true =>
    have h1x : s.pc1 = .waitingOn g := h1
    rw [setPc_true]
    refine ⟨?_, ?_, ?_, ?_, ?_, ?_, ?_, ?_, ?_, ?_⟩
    · show s.downloads
        = dlContrib (ThreadPhase.finished (.success (!true))) true + dlContrib s.pc2 false
      rw [hinv.dl, h1x]
      rfl
    · intro g2 hg2
      have hg2x : s.flight = some g2 := hg2
      rcases hinv.flightOwner g2 hg2x with ⟨u2, hu2⟩
      cases u2 with
      | true =>
        rw [h1] at hu2
        rcases hu2 with hu2 | hu2 <;> exact ThreadPhase.noConfusion hu2
      | false => exact ⟨false, hu2⟩
    · intro u2 g2 hu2
      cases u2 with
      | true =>
        exact ThreadPhase.noConfusion
          (show ThreadPhase.finished (.success (!true)) = .downloading g2 from hu2)
      | false => exact hinv.ownDown false g2 hu2
    · intro u2 g2 hu2
      cases u2 with
      | true =>
        exact ThreadPhase.noConfusion
          (show ThreadPhase.finished (.success (!true)) = .completedPh g2 from hu2)
      | false => exact hinv.ownComp false g2 hu2
    · intro u2 g2 hu2
      cases u2 with
      | true =>
        exact ThreadPhase.noConfusion
          (show ThreadPhase.finished (.success (!true)) = .waitingOn g2 from hu2)
      | false =>
        have hcw2 := (hinv.waitInv false g2 hu2).1
        rw [hcw] at hcw2
        injection hcw2 with hx
        exact Bool.noConfusion hx
    · intro u2 o hc hfin
      have hcx : s.collided = some u2 := hc
      rw [hcw] at hcx
      injection hcx with hcu
      rw [← hcu] at hfin ⊢
      have hfinx : ThreadPhase.finished (.success (!true)) = .finished o := hfin
      injection hfinx with ho2
      exact Or.inl ⟨hww, ho2.symm, hval⟩
    · intro u2 hc
      have hcx : s.collided = some u2 := hc
      rw [hcw] at hcx
      injection hcx with hcu
      rw [← hcu]
      exact hinv.winnerSt true hcw
    · intro u2 hc
      have hcx : s.collided = some u2 := hc
      rw [hcw] at hcx
      injection hcx with hcu
      rw [← hcu]
      exact Or.inr ⟨.success (!true), rfl⟩
    · intro _
      exact ⟨true, hcw⟩
    · intro g1 g2 hA hB
      rcases hA with hA | hA <;>
        exact ThreadPhase.noConfusion
          (show ThreadPhase.finished (.success (!true)) = _ from hA)
  | false =>
    have h1x : s.pc2 = .waitingOn g := h1
    rw [setPc_false]
    refine ⟨?_, ?_, ?_, ?_, ?_, ?_, ?_, ?_, ?_, ?_⟩
    · show s.downloads
        = dlContrib s.pc1 true + dlContrib (ThreadPhase.finished (.success (!false))) false
      rw [hinv.dl, h1x]
      rfl
    · intro g2 hg2
      have hg2x : s.flight = some g2 := hg2
      rcases hinv.flightOwner g2 hg2x with ⟨u2, hu2⟩
      cases u2 with
      | false =>
        rw [h1] at hu2
        rcases hu2 with hu2 | hu2 <;> exact ThreadPhase.noConfusion hu2
      | true => exact ⟨true, hu2⟩
    · intro u2 g2 hu2
      cases u2 with
      | false =>
        exact ThreadPhase.noConfusion
          (show ThreadPhase.finished (.success (!false)) = .downloading g2 from hu2)
      | true => exact hinv.ownDown true g2 hu2
    · intro u2 g2 hu2
      cases u2 with
      | false =>
        exact ThreadPhase.noConfusion
          (show ThreadPhase.finished (.success (!false)) = .completedPh g2 from hu2)
      | true => exact hinv.ownComp true g2 hu2
    · intro u2 g2 hu2
      cases u2 with
      | false =>
        exact ThreadPhase.noConfusion
          (show ThreadPhase.finished (.success (!false)) = .waitingOn g2 from hu2)
      | true =>
        have hcw2 := (hinv.waitInv true g2 hu2).1
        rw [hcw] at hcw2
        injection hcw2 with hx
        exact Bool.noConfusion hx
    · intro u2 o hc hfin
      have hcx : s.collided = some u2 := hc
      rw [hcw] at hcx
      injection hcx with hcu
      rw [← hcu] at hfin ⊢
      have hfinx : ThreadPhase.finished (.success (!false)) = .finished o := hfin
      injection hfinx with ho2
      exact Or.inl ⟨hww, ho2.symm, hval⟩
    · intro u2 hc
      have hcx : s.collided = some u2 := hc
      rw [hcw] at hcx
      injection hcx with hcu
      rw [← hcu]
      exact hinv.winnerSt false hcw
    · intro u2 hc
      have hcx : s.collided = some u2 := hc
      rw [hcw] at hcx
      injection hcx with hcu
      rw [← hcu]
      exact Or.inr ⟨.success (!false), rfl⟩
    · intro _
      exact ⟨false, hcw⟩
    · intro g1 g2 hA hB
      rcases hB with hB | hB <;>
        exact ThreadPhase.noConfusion
          (show ThreadPhase.finished (.success (!false)) = _ from hB)

theorem inv_init (r1 r2 : DownloadRequest) : DedupInv r1 r2 initState := by
  refine ⟨rfl, ?_, ?_, ?_, ?_, ?_, ?_, ?_, ?_, ?_⟩
  · intro g hg
    exact Option.noConfusion (show (none : Option Nat) = some g from hg)
  · intro u g hu
    cases u <;> exact ThreadPhase.noConfusion
      (show ThreadPhase.start = .downloading g from hu)
  · intro u g hu
    cases u <;> exact ThreadPhase.noConfusion
      (show ThreadPhase.start = .completedPh g from hu)
  · intro u g hu
    cases u <;> exact ThreadPhase.noConfusion
      (show ThreadPhase.start = .waitingOn g from hu)
  · intro u o hc hfin
    exact Option.noConfusion (show (none : Option Bool) = some u from hc)
  · intro u hc
    exact Option.noConfusion (show (none : Option Bool) = some u from hc)
  · intro u hc
    exact Option.noConfusion (show (none : Option Bool) = some u from hc)
  · intro hw
    exact Bool.noConfusion (show false = true from hw)
  · intro g g2 hA hB
    rcases hA with hA | hA <;>
      exact ThreadPhase.noConfusion (show ThreadPhase.start = _ from hA)

theorem inv_step (r1 r2 : DownloadRequest) (s s2 : DedupState)
    (hst : Step r1 r2 s s2) (hinv : DedupInv r1 r2 s) : DedupInv r1 r2 s2 := by
  cases hst with
  | regWin t h1 h2 => exact inv_regWin r1 r2 s t h1 h2 hinv
  | regLoseWait t g w h1 h2 h3 h4 =>
    exact inv_regLoseWait r1 r2 s t g w h1 h2 h3 h4 hinv
  | regLoseErr t g w e h1 h2 h3 h4 =>
    exact inv_regLoseErr r1 r2 s t g w e h1 h2 h3 h4 hinv
  | complete t g w h1 h2 => exact inv_complete r1 r2 s t g w h1 h2 hinv
  | del t g h1 => exact inv_del r1 r2 s t g h1 hinv
  | await t g w h1 h2 h3 => exact inv_await r1 r2 s t g w h1 h2 h3 hinv

theorem inv_reachable (r1 r2 : DownloadRequest) (s : DedupState)
    (h : Reachable r1 r2 s) : DedupInv r1 r2 s := by
  have h2 : Relation.ReflTransGen (Step r1 r2) initState s := h
  induction h2 with
  | refl => exact inv_init r1 r2
  | tail hab hbc ih => exact inv_step r1 r2 _ _ hbc (ih hab)

/-- Claim C6 (corrected): in the two-thread `downloadWithDedup` system, the
coordinator requires a colliding request to agree on the URL and, whenever it
supplies a checksum, on the checksum — agreement on the checksum alone does
not suffice (see the counterexample) ; under agreement exactly one download
occurs and both callers finish with the winning thread's outcome, while a
mismatch makes the colliding caller finish with the conflict error without
waiting, the single download still being performed by the winner. -/
theorem claim_C6 (r1 r2 : DownloadRequest) :
    (∀ (req : DownloadRequest) (url ck : String),
      validateCollision req url ck = none ↔
        (req.Checksum = "" ∨ req.Checksum = ck) ∧ req.URL = url) ∧
    (∀ s, Reachable r1 r2 s → ∀ t, s.collided = some t → s.terminalState →
      s.downloads = 1 ∧
      ((s.waited = true ∧
        validateCollision (reqOf r1 r2 t) (reqOf r1 r2 (!t)).URL
          (reqOf r1 r2 (!t)).Checksum = none ∧
        s.pc t = .finished (.success (!t)) ∧ s.pc (!t) = .finished (.success (!t))) ∨
       (s.waited = false ∧
        ∃ e, validateCollision (reqOf r1 r2 t) (reqOf r1 r2 (!t)).URL
          (reqOf r1 r2 (!t)).Checksum = some e ∧
        s.pc t = .finished (.failure e) ∧ s.pc (!t) = .finished (.success (!t))))) := by
  constructor
  · intro req url ck
    constructor
    · intro h
      rw [validateCollision] at h
      split_ifs at h with hc hu
      refine ⟨?_, ?_⟩
      · rcases Decidable.em (req.Checksum = "") with h1 | h1
        · exact Or.inl h1
        · refine Or.inr ?_
          by_contra h2
          exact hc ⟨h1, h2⟩
      · by_contra h2
        exact hu h2
    · intro hyp
      have hA : ¬(req.Checksum ≠ "" ∧ req.Checksum ≠ ck) := by
        intro hx
        rcases hyp.1 with h1 | h1
        · exact hx.1 h1
        · exact hx.2 h1
      have hB : ¬(req.URL ≠ url) := fun hx => hx hyp.2
      rw [validateCollision, if_neg hA, if_neg hB]
  · intro s hreach t hcol hterm
    have hinv := inv_reachable r1 r2 s hreach
    have hwin : s.pc (!t) = .finished (.success (!t)) := by
      have hfin2 : ∃ o, s.pc (!t) = .finished o := by
        cases t with
        | true => exact hterm.2
        | false => exact hterm.1
      rcases hfin2 with ⟨o2, ho2⟩
      rcases hinv.winnerSt t hcol with ⟨g, hg⟩ | ⟨g, hg⟩ | hg
      · rw [ho2] at hg
        exact ThreadPhase.noConfusion hg
      · rw [ho2] at hg
        exact ThreadPhase.noConfusion hg
      · exact hg
    have hfin1 : ∃ o, s.pc t = .finished o := by
      cases t with
      | true => exact hterm.1
      | false => exact hterm.2
    rcases hfin1 with ⟨o, ho⟩
    have hl := hinv.loserFin t o hcol ho
    constructor
    · rw [hinv.dl]
      cases t with
      | true =>
        have hw2 : s.pc2 = .finished (.success false) := hwin
        have ho1 : s.pc1 = .finished o := ho
        rw [hw2, ho1]
        rcases hl with ⟨_, hosucc, _⟩ | ⟨_, e, hofail, _⟩
        · rw [hosucc]
          rfl
        · rw [hofail]
          rfl
      | false =>
        have hw2 : s.pc1 = .finished (.success true) := hwin
        have ho1 : s.pc2 = .finished o := ho
        rw [hw2, ho1]
        rcases hl with ⟨_, hosucc, _⟩ | ⟨_, e, hofail, _⟩
        · rw [hosucc]
          rfl
        · rw [hofail]
          rfl
    · rcases hl with ⟨hw, hosucc, hvalx⟩ | ⟨hw, e, hofail, hvalx⟩
      · exact Or.inl ⟨hw, hvalx, hosucc ▸ ho, hwin⟩
      · exact Or.inr ⟨hw, e, hvalx, hofail ▸ ho, hwin⟩

/-- Claim C6 counterexample: two requests for one destination that agree on
the checksum (`h`, supplied by both) but differ in URL do not validate — the
colliding thread fails with the URL-conflict error, refuting "agree on URL
or (if a checksum is supplied) on checksum". -/
theorem claim_C6_counterexample :
    (⟨"u2", "h"⟩ : DownloadRequest).Checksum
      = (⟨"u1", "h"⟩ : DownloadRequest).Checksum ∧
    (⟨"u2", "h"⟩ : DownloadRequest).Checksum ≠ "" ∧
    ∃ s, Reachable ⟨"u1", "h"⟩ ⟨"u2", "h"⟩ s ∧
      s.pc2 = .finished (.failure .urlConflict) := by
  refine ⟨rfl, by decide, ?_⟩
  exact ⟨_, Relation.ReflTransGen.tail
    (Relation.ReflTransGen.tail
      (@Relation.ReflTransGen.refl DedupState (Step ⟨"u1", "h"⟩ ⟨"u2", "h"⟩) initState)
      (Step.regWin initState true rfl rfl))
    (Step.regLoseErr _ false 0 ⟨"u1", "h", false, none⟩ .urlConflict
      rfl rfl rfl (by decide)), rfl⟩

/-- Concrete instantiation of claim C6: two identical requests; the second
thread collides, waits, and both finish with the first thread's success
after exactly one download. -/
theorem claim_C6_witness :
    ∃ s, Reachable ⟨"u", "h"⟩ ⟨"u", "h"⟩ s ∧ s.collided = some false ∧
      s.terminalState ∧ s.downloads = 1 ∧
      s.pc1 = .finished (.success true) ∧ s.pc2 = .finished (.success true) := by
  have tr := Relation.ReflTransGen.tail (Relation.ReflTransGen.tail
    (Relation.ReflTransGen.tail (Relation.ReflTransGen.tail
      (Relation.ReflTransGen.tail
        (@Relation.ReflTransGen.refl DedupState (Step ⟨"u", "h"⟩ ⟨"u", "h"⟩) initState)
        (Step.regWin initState true rfl rfl))
      (Step.regLoseWait _ false 0 ⟨"u", "h", false, none⟩ rfl rfl rfl (by decide)))
    (Step.complete _ true 0 ⟨"u", "h", false, none⟩ rfl rfl))
    (Step.del _ true 0 rfl))
    (Step.await _ false 0 ⟨"u", "h", true, some (.success true)⟩ rfl rfl rfl)
  refine ⟨_, tr, rfl, ⟨⟨_, rfl⟩, ⟨_, rfl⟩⟩, ?_, rfl, rfl⟩
  exact ((claim_C6 ⟨"u", "h"⟩ ⟨"u", "h"⟩).2 _ tr false rfl ⟨⟨_, rfl⟩, ⟨_, rfl⟩⟩).1
